import Mathlib

/-!
Verification of the Aleph persistent-homology core against its design
specification.  The C++ sources are shallowly embedded: pure functions
become Lean functions, the mutating container operations become pure
state-passing functions on explicit structures.  Machine integers are
modelled by `Nat`/`Int` (no overflow is relevant to the verified
properties), GF(2) sparse columns by `Finset ℕ`.
-/

namespace Aleph

/-!
## Persistence diagrams

Embedding of `src/include/aleph/persistenceDiagrams/PersistenceDiagram.hh`.
The C++ class is a template over a numeric `DataType`; the relevant
pieces of `std::numeric_limits<DataType>` (`has_infinity`, `infinity()`,
`max()`) are bundled into an explicit record so the embedding stays
faithful for both floating-point-like and integer-like instantiations.
-/

/-- Relevant fragment of `std::numeric_limits<DataType>` for the data type
of a persistence diagram. -/
structure NumLimits (α : Type) where
  has_infinity : Bool
  infinity : α
  max : α

/-- A point of a persistence diagram (`PersistenceDiagram::Point`),
storing birth `_x` and death `_y`. -/
structure Point (α : Type) where
  x : α
  y : α
deriving DecidableEq, Repr

/-- `Point::persistence`: returns `_y - _x`. -/
def Point.persistence {α : Type} [Sub α] (p : Point α) : α :=
  p.y - p.x

/-- `Point::Point(DataType x)`: sets `_y` to `max()`, then overwrites it
with `infinity()` when the data type has an infinity. -/
def mkUnpairedPoint {α : Type} (nl : NumLimits α) (x : α) : Point α :=
  ⟨x, if nl.has_infinity then nl.infinity else nl.max⟩

/-- `Point::isUnpaired`: the death value equals `infinity()` when the
data type has an infinity, and `max()` otherwise. -/
def Point.isUnpaired {α : Type} [DecidableEq α] (nl : NumLimits α) (p : Point α) : Bool :=
  (nl.has_infinity && decide (p.y = nl.infinity))
    || (!nl.has_infinity && decide (p.y = nl.max))

/-- `PersistenceDiagram<T>`: a dimension attribute (default 0) plus a
vector of points. -/
structure PersistenceDiagram (α : Type) where
  dimension : ℕ := 0
  points : List (Point α) := []
deriving DecidableEq, Repr

namespace PersistenceDiagram

/-- `PersistenceDiagram::add(x, y)`: pushes back the point `(x, y)`. -/
def add {α : Type} (D : PersistenceDiagram α) (x y : α) : PersistenceDiagram α :=
  { D with points := D.points ++ [⟨x, y⟩] }

/-- `PersistenceDiagram::add(x)`: pushes back an unpaired point. -/
def addEssential {α : Type} (nl : NumLimits α) (D : PersistenceDiagram α) (x : α) :
    PersistenceDiagram α :=
  { D with points := D.points ++ [mkUnpairedPoint nl x] }

/-- `PersistenceDiagram::betti`: `std::count_if` over the points with the
`isUnpaired` predicate. -/
def betti {α : Type} [DecidableEq α] (nl : NumLimits α) (D : PersistenceDiagram α) : ℕ :=
  D.points.countP (fun p => p.isUnpaired nl)

/-- `PersistenceDiagram::removeUnpaired`: the `erase`/`remove_if` idiom,
i.e. a stable filter that keeps exactly the points that are not
unpaired. -/
def removeUnpaired {α : Type} [DecidableEq α] (nl : NumLimits α) (D : PersistenceDiagram α) :
    PersistenceDiagram α :=
  { D with points := D.points.filter (fun p => !(p.isUnpaired nl)) }

/-- `PersistenceDiagram::merge`: appends the other diagram's points to the
current diagram's point vector.  The C++ function takes `other` by const
reference and never writes to it, so `other` is left unchanged; in this
pure embedding only `D` is rebuilt. -/
def merge {α : Type} (D other : PersistenceDiagram α) : PersistenceDiagram α :=
  { D with points := D.points ++ other.points }

/-- `PersistenceDiagram::size`. -/
def size {α : Type} (D : PersistenceDiagram α) : ℕ :=
  D.points.length

end PersistenceDiagram

/-- Claim C5: for every persistence diagram `D`, `D.betti()` returns
exactly the number of points of `D` whose death value equals the
infinite-death sentinel (the type's infinity when it has one, otherwise
the type's maximum value), i.e. the count of essential/unpaired
points. -/
theorem C5_betti_counts_essential {α : Type} [DecidableEq α]
    (nl : NumLimits α) (D : PersistenceDiagram α) :
    D.betti nl
      = D.points.countP
          (fun p => decide (p.y = if nl.has_infinity then nl.infinity else nl.max)) := by
  unfold PersistenceDiagram.betti Point.isUnpaired
  cases h : nl.has_infinity <;> simp [h]

/-- Claim C6, counterexample: `add` imposes no ordering constraint on its
arguments, so a diagram can contain a point whose death lies before its
birth; that point has strictly negative persistence, refuting the claim
that every diagram point satisfies birth ≤ death. -/
theorem C6_persistence_nonneg_cex :
    ∃ p ∈ ((⟨0, []⟩ : PersistenceDiagram ℤ).add 3 1).points, p.persistence < 0 := by
  refine ⟨⟨3, 1⟩, by decide, by decide⟩

/-- Claim C6 (amended): for every point `p`, `p.persistence()` equals
`p.y() − p.x()`; the diagram itself does not enforce birth ≤ death —
`add(x, y)` appends the point `(x, y)` unconditionally, so the
persistence of a diagram point need not be nonnegative. -/
theorem C6_persistence_eq_death_sub_birth {α : Type} [Sub α]
    (p : Point α) (D : PersistenceDiagram α) (x y : α) :
    p.persistence = p.y - p.x ∧ (D.add x y).points = D.points ++ [⟨x, y⟩] :=
  ⟨rfl, rfl⟩

/-- Claim C9: after `removeUnpaired`, every remaining point is paired and
`betti` is 0; the remaining points are exactly the previously-paired
points of the diagram, in their original relative order (a sublist), and
the dimension attribute is untouched. -/
theorem C9_removeUnpaired_spec {α : Type} [DecidableEq α]
    (nl : NumLimits α) (D : PersistenceDiagram α) :
    (D.removeUnpaired nl).points = D.points.filter (fun p => !(p.isUnpaired nl))
      ∧ (∀ p ∈ (D.removeUnpaired nl).points, p.isUnpaired nl = false)
      ∧ (D.removeUnpaired nl).betti nl = 0
      ∧ (D.removeUnpaired nl).points.Sublist D.points
      ∧ (D.removeUnpaired nl).dimension = D.dimension := by
  refine ⟨rfl, ?_, ?_, ?_, rfl⟩
  · intro p hp
    have := List.of_mem_filter hp
    simpa using this
  · rw [PersistenceDiagram.betti, List.countP_eq_zero]
    intro p hp
    have := List.of_mem_filter hp
    simpa using this
  · exact List.filter_sublist _

/-- Claim C10: `D.merge(E)` turns `D`'s point sequence into `D`'s previous
points followed by all of `E`'s points (duplicates retained, so the size
becomes the sum of both sizes) and leaves `D`'s dimension attribute
unchanged; `E` is read but never written. -/
theorem C10_merge_spec {α : Type} (D E : PersistenceDiagram α) :
    (D.merge E).points = D.points ++ E.points
      ∧ (D.merge E).dimension = D.dimension
      ∧ (D.merge E).size = D.size + E.size := by
  refine ⟨rfl, rfl, ?_⟩
  simp [PersistenceDiagram.size, PersistenceDiagram.merge]

/-!
## Boundary matrices

Embedding of `src/boundaryMatrices/BoundaryMatrix.hh` together with its
column-store representation.  The facade `BoundaryMatrix<Representation>`
in the sources delegates every column operation to a representation
class (`Vector.hh`) whose code is not part of this tree; that
representation is modelled from the spec's column-store contract
(§3 "Column", §4.1): a column is a set of row indices, kept sorted
ascending without duplicates (GF(2): presence = 1), `addColumns` is the
symmetric difference of the two columns, the pivot is the maximum index
of a column or "none" when it is empty.  A column is therefore embedded
as a `Finset ℕ` and the matrix as the list of its columns plus the
`_isDualized` flag of the facade (default `false`).
-/

/-- A boundary matrix: ordered columns (each a finite set of row
indices over GF(2)) plus the `_isDualized` flag. -/
structure BoundaryMatrix where
  columns : List (Finset ℕ)
  dualized : Bool := false
deriving DecidableEq

/-- Reading a list at an updated position. -/
theorem getD_set_self {α : Type} {l : List α} {j : ℕ} {d : α} (c : α)
    (hj : j < l.length) : (l.set j c).getD j d = c := by
  rw [List.getD_eq_getElem _ _ (by simpa using hj)]
  simp [List.getElem_set]

/-- Reading a list away from an updated position. -/
theorem getD_set_ne {α : Type} {l : List α} {j k : ℕ} {d : α} (c : α)
    (h : j ≠ k) : (l.set j c).getD k d = l.getD k d := by
  rcases Nat.lt_or_ge k l.length with hk | hk
  · rw [List.getD_eq_getElem _ _ (by simpa using hk), List.getD_eq_getElem _ _ hk,
      List.getElem_set_ne h]
  · rw [List.getD_eq_default _ _ (by simpa using hk), List.getD_eq_default _ _ hk]

/-- Writing back the value already stored at a position is a no-op. -/
theorem set_getD_self {α : Type} {l : List α} {j : ℕ} {d : α}
    (hj : j < l.length) : l.set j (l.getD j d) = l := by
  apply List.ext_getElem
  · simp
  · intro n h₁ h₂
    rw [List.getElem_set]
    split
    · subst n
      rw [List.getD_eq_getElem _ _ hj]
    · rfl

namespace BoundaryMatrix

/-- `BoundaryMatrix::getNumColumns`. -/
def getNumColumns (M : BoundaryMatrix) : ℕ :=
  M.columns.length

/-- Contents of column `j` (out-of-range reads default to the empty
column; all verified statements stay within range). -/
def col (M : BoundaryMatrix) (j : ℕ) : Finset ℕ :=
  M.columns.getD j ∅

/-- Modelled from the spec: `getMaximumIndex(j) -> (index, present)`
returns the pivot (maximum index) of column `j` and whether it exists;
absence is an ordinary return value, not an error.  The code lives in
the missing representation header `Vector.hh`. -/
def getMaximumIndex (M : BoundaryMatrix) (j : ℕ) : ℕ × Bool :=
  match (M.col j).max with
  | some p => (p, true)
  | none => (0, false)

/-- Modelled from the spec: `addColumns(source, target)` sets
`column[target] := column[target] ⊕ column[source]` (symmetric
difference, i.e. GF(2) addition).  The code lives in the missing
representation header `Vector.hh`. -/
def addColumns (M : BoundaryMatrix) (s t : ℕ) : BoundaryMatrix :=
  { M with columns := M.columns.set t (symmDiff (M.col t) (M.col s)) }

/-- Modelled from the spec: `clearColumn(j)` empties column `j`.  The
code lives in the missing representation header `Vector.hh`. -/
def clearColumn (M : BoundaryMatrix) (j : ℕ) : BoundaryMatrix :=
  { M with columns := M.columns.set j ∅ }

/-- `BoundaryMatrix::getColumn`, via the spec's column store: the
column's indices in ascending order. -/
def getColumn (M : BoundaryMatrix) (j : ℕ) : List ℕ :=
  (M.col j).sort (· ≤ ·)

/-- Modelled from the spec: `getDimension(j)` is `|column j| − 1`, the
simplex dimension implied by the boundary face count (truncated at 0 for
an empty column, the case of a vertex).  The code lives in the missing
representation header `Vector.hh`. -/
def getDimension (M : BoundaryMatrix) (j : ℕ) : ℕ :=
  (M.col j).card - 1

/-- `BoundaryMatrix::setDualized`. -/
def setDualized (M : BoundaryMatrix) (value : Bool) : BoundaryMatrix :=
  { M with dualized := value }

/-- `BoundaryMatrix::isDualized`. -/
def isDualized (M : BoundaryMatrix) : Bool :=
  M.dualized

end BoundaryMatrix

/-- The boundary matrix of the full triangle from the test suite
(`Triangle.txt` / the complex `{0},{1},{2},{0,1},{0,2},{1,2},{0,1,2}`):
three vertices, three edges, one 2-simplex. -/
def triangleMatrix : BoundaryMatrix :=
  ⟨[∅, ∅, ∅, {0, 1}, {0, 2}, {1, 2}, {3, 4, 5}], false⟩

/-- A small two-column matrix used for concrete evaluations. -/
def pairMatrix : BoundaryMatrix :=
  ⟨[∅, {0}], false⟩

/-- Claim C3, counterexample: `(source, target) = (1, 1)` is a pair of
valid column indices of `pairMatrix`, yet applying `addColumns(1, 1)`
twice does not restore column 1: the first application already zeroes
the column (it is added to itself), and the second leaves it empty. -/
theorem C3_addColumns_twice_cex :
    ((pairMatrix.addColumns 1 1).addColumns 1 1).col 1 ≠ pairMatrix.col 1 := by
  decide

/-- Claim C3 (amended): for every matrix and every valid pair of
distinct column indices `(source, target)`, applying
`addColumns(source, target)` twice restores the whole matrix — in
particular column `target` — to its state before the first call; when
`source = target` the first application already clears the column, so
the restriction to distinct indices is necessary. -/
theorem C3_addColumns_self_inverse (M : BoundaryMatrix) (s t : ℕ)
    (hs : s < M.getNumColumns) (ht : t < M.getNumColumns) (hne : s ≠ t) :
    (M.addColumns s t).addColumns s t = M := by
  obtain ⟨columns, dualized⟩ := M
  simp only [BoundaryMatrix.addColumns, BoundaryMatrix.col, BoundaryMatrix.mk.injEq, and_true]
  have ht' : t < columns.length := ht
  rw [getD_set_ne _ (fun h => hne h.symm), getD_set_self _ ht', List.set_set,
    symmDiff_symmDiff_cancel_right, set_getD_self ht']

/-- Claim C3 (amended), witness: the concrete instance
`(source, target) = (0, 1)` on `pairMatrix`. -/
theorem C3_addColumns_self_inverse_w :
    (pairMatrix.addColumns 0 1).addColumns 0 1 = pairMatrix :=
  C3_addColumns_self_inverse pairMatrix 0 1 (by decide) (by decide) (by decide)

/-- Claim C4: for every matrix and every valid column index `j`,
`getMaximumIndex(j)` on a freshly cleared column returns a result whose
`present` component is `false`; the function is total (pivot absence is
an ordinary return value, not an error). -/
theorem C4_getMaximumIndex_cleared (M : BoundaryMatrix) (j : ℕ)
    (hj : j < M.getNumColumns) :
    (M.clearColumn j).getMaximumIndex j = (0, false) := by
  have hcol : (M.clearColumn j).col j = ∅ := by
    rw [BoundaryMatrix.clearColumn, BoundaryMatrix.col]
    exact getD_set_self _ hj
  rw [BoundaryMatrix.getMaximumIndex, hcol]
  rfl

/-- Claim C4, witness: clearing column 1 of `pairMatrix` (which held
`{0}`) and querying its pivot. -/
theorem C4_getMaximumIndex_cleared_w :
    (pairMatrix.clearColumn 1).getMaximumIndex 1 = (0, false) :=
  C4_getMaximumIndex_cleared pairMatrix 1 (by decide)

/-!
## Dualization
-/

/-- Reading a mapped range list. -/
theorem getD_map_range {α : Type} {d : α} (f : ℕ → α) {N j : ℕ} (hj : j < N) :
    ((List.range N).map f).getD j d = f j := by
  rw [List.getD_eq_getElem _ _ (by simpa using hj)]
  simp

/-- Modelled from the spec: `dualizeTrivial` (header `Dualization.hh`,
not in the tree) produces the anti-transpose of an `N`-column matrix:
entry `r` in column `c` of the input becomes entry `N−1−c` in column
`N−1−r` of the output, and the `dualized` flag is toggled (dualizing an
already-dualized matrix toggles it back). -/
def dualize (M : BoundaryMatrix) : BoundaryMatrix :=
  { columns := (List.range M.getNumColumns).map (fun j =>
      ((Finset.range M.getNumColumns).filter
        (fun c => M.getNumColumns - 1 - j ∈ M.col c)).image
        (fun c => M.getNumColumns - 1 - c)),
    dualized := !M.dualized }

/-- The dualized matrix has the same number of columns. -/
theorem getNumColumns_dualize (M : BoundaryMatrix) :
    (dualize M).getNumColumns = M.getNumColumns := by
  simp [dualize, BoundaryMatrix.getNumColumns]

/-- Columns of the dualized matrix, in range. -/
theorem col_dualize (M : BoundaryMatrix) {j : ℕ} (hj : j < M.getNumColumns) :
    (dualize M).col j
      = ((Finset.range M.getNumColumns).filter
          (fun c => M.getNumColumns - 1 - j ∈ M.col c)).image
          (fun c => M.getNumColumns - 1 - c) := by
  rw [dualize, BoundaryMatrix.col]
  exact getD_map_range _ hj

/-- Membership in a column of the dualized matrix, in range. -/
theorem mem_col_dualize (M : BoundaryMatrix) {j r : ℕ} (hj : j < M.getNumColumns) :
    r ∈ (dualize M).col j
      ↔ ∃ c < M.getNumColumns,
          M.getNumColumns - 1 - j ∈ M.col c ∧ M.getNumColumns - 1 - c = r := by
  rw [col_dualize M hj]
  simp [Finset.mem_image, Finset.mem_filter, Finset.mem_range]
  tauto

/-- Every entry of a column of `M` is below `M`'s column count, given the
matrix-level bound. -/
theorem col_entry_lt (M : BoundaryMatrix)
    (hb : ∀ c ∈ M.columns, ∀ r ∈ c, r < M.getNumColumns)
    {j r : ℕ} (hr : r ∈ M.col j) : r < M.getNumColumns := by
  rcases Nat.lt_or_ge j M.columns.length with h | h
  · rw [BoundaryMatrix.col, List.getD_eq_getElem _ _ h] at hr
    exact hb _ (M.columns.getElem_mem h) r hr
  · rw [BoundaryMatrix.col, List.getD_eq_default _ _ h] at hr
    exact absurd hr (Finset.not_mem_empty r)

/-- Claim C2: for every boundary matrix `M` (whose entries lie inside
the row-index space, i.e. below the column count),
`dualize (dualize M)` reproduces `M`'s column contents exactly, and the
`dualized` flag of the result equals `M`'s original flag — dualizing an
already-dualized matrix toggles the flag back. -/
theorem C2_dualize_involution (M : BoundaryMatrix)
    (hb : ∀ c ∈ M.columns, ∀ r ∈ c, r < M.getNumColumns) :
    (dualize (dualize M)).columns = M.columns
      ∧ (dualize (dualize M)).dualized = M.dualized := by
  constructor
  · have hN : (dualize M).getNumColumns = M.getNumColumns := getNumColumns_dualize M
    have hcol : ∀ j < M.getNumColumns, (dualize (dualize M)).col j = M.col j := by
      intro j hj
      ext r
      rw [mem_col_dualize (dualize M) (by rw [hN]; exact hj), hN]
      constructor
      · rintro ⟨c, hc, hmem, rfl⟩
        rw [mem_col_dualize M hc] at hmem
        obtain ⟨c', hc', hmem', heq⟩ := hmem
        have : c' = j := by omega
        subst this
        have : M.getNumColumns - 1 - c < M.getNumColumns := by omega
        exact hmem'
      · intro hr
        have hrN : r < M.getNumColumns := col_entry_lt M hb hr
        refine ⟨M.getNumColumns - 1 - r, by omega, ?_, by omega⟩
        rw [mem_col_dualize M (by omega)]
        exact ⟨j, hj, by simpa [(by omega : M.getNumColumns - 1 -
          (M.getNumColumns - 1 - r) = r)] using hr, by omega⟩
    have hlen : (dualize (dualize M)).columns.length = M.columns.length := by
      have h1 := getNumColumns_dualize (dualize M)
      rw [hN] at h1
      exact h1
    apply List.ext_getElem hlen
    intro j h₁ h₂
    have hj : j < M.getNumColumns := h₂
    have := hcol j hj
    rw [BoundaryMatrix.col, BoundaryMatrix.col,
      List.getD_eq_getElem _ _ h₁, List.getD_eq_getElem _ _ h₂] at this
    exact this
  · simp [dualize]

/-- Claim C2, witness: the triangle boundary matrix. -/
theorem C2_dualize_involution_w :
    (dualize (dualize triangleMatrix)).columns = triangleMatrix.columns
      ∧ (dualize (dualize triangleMatrix)).dualized = triangleMatrix.dualized :=
  C2_dualize_involution triangleMatrix (by decide)

/-!
## Text serialization

Embedding of `operator<<` for boundary matrices
(`src/boundaryMatrices/BoundaryMatrix.hh`, lines 89–111): for every
column index `j` in order, if the column is non-empty each of its
indices is streamed followed by a space (`o << c << " "`), otherwise a
single `-` is streamed; every column's line is closed by `"\n"`.
-/

/-- The text serialization of a boundary matrix, translated from the
stream-insertion operator in the source. -/
def showMatrix (M : BoundaryMatrix) : String :=
  (List.range M.getNumColumns).foldl (fun o j =>
    let column := M.getColumn j
    (if !column.isEmpty then
      column.foldl (fun o c => o ++ toString c ++ " ") o
    else
      o ++ "-") ++ "\n") ""

/-- The serialization as worded by the spec and the claim: the indices of
a non-empty column "separated by spaces" (no trailing separator).  Kept
separate so the claim can be compared against the code's behaviour. -/
def showMatrixSpec (M : BoundaryMatrix) : String :=
  (List.range M.getNumColumns).foldl (fun o j =>
    let column := M.getColumn j
    o ++ (if column.isEmpty then "-"
          else String.intercalate " " (column.map toString)) ++ "\n") ""

/-- Folding string appends equals appending the joined pieces. -/
theorem foldl_append_join {α : Type} (g : α → String) (l : List α) (o : String) :
    l.foldl (fun acc a => acc ++ g a) o = o ++ String.join (l.map g) := by
  apply String.ext
  have hdata : ∀ (l : List α) (o : String),
      (l.foldl (fun acc a => acc ++ g a) o).data
        = o.data ++ (l.map (fun a => (g a).data)).flatten := by
    intro l
    induction l with
    | nil => intro o; simp
    | cons a t ih => intro o; simp [ih]
  rw [hdata]
  simp [List.map_map, Function.comp_def]

/-- Claim C8, counterexample: on the two-column matrix `pairMatrix` the
code prints `"-\n0 \n"` — each index is followed by a space, leaving a
trailing space before the newline — while the claim's "indices separated
by spaces" reading would print `"-\n0\n"`. -/
theorem C8_serialization_cex :
    showMatrix pairMatrix = "-\n0 \n"
      ∧ showMatrixSpec pairMatrix = "-\n0\n"
      ∧ showMatrix pairMatrix ≠ showMatrixSpec pairMatrix := by
  have h0 : pairMatrix.getColumn 0 = [] := by
    simp [BoundaryMatrix.getColumn, BoundaryMatrix.col, pairMatrix]
  have h1 : pairMatrix.getColumn 1 = [0] := by
    simp [BoundaryMatrix.getColumn, BoundaryMatrix.col, pairMatrix]
  have hN : pairMatrix.getNumColumns = 2 := rfl
  have ha : showMatrix pairMatrix = "-\n0 \n" := by
    rw [showMatrix, hN, show List.range 2 = [0, 1] from rfl]
    simp only [List.foldl_cons, List.foldl_nil, h0, h1]
    rfl
  have hb : showMatrixSpec pairMatrix = "-\n0\n" := by
    rw [showMatrixSpec, hN, show List.range 2 = [0, 1] from rfl]
    simp only [List.foldl_cons, List.foldl_nil, h0, h1]
    rfl
  refine ⟨ha, hb, ?_⟩
  rw [ha, hb]
  decide

/-- Claim C8 (amended): the serialization writes exactly one
newline-terminated line per column, in column order; an empty column is
printed as a single `-`, and a non-empty column is printed as its
indices in ascending order, each index followed by one space (so the
line carries a trailing space before its newline). -/
theorem C8_serialization_lines (M : BoundaryMatrix) :
    showMatrix M
      = String.join ((List.range M.getNumColumns).map (fun j =>
          (if (M.getColumn j).isEmpty then "-"
           else String.join ((M.getColumn j).map (fun c => toString c ++ " "))) ++ "\n"))
      ∧ ∀ j, List.Sorted (· ≤ ·) (M.getColumn j) := by
  constructor
  · rw [showMatrix]
    rw [List.foldl_ext _ (fun o j =>
      o ++ ((if (M.getColumn j).isEmpty then "-"
             else String.join ((M.getColumn j).map (fun c => toString c ++ " "))) ++ "\n"))]
    · rw [foldl_append_join, String.empty_append]
    · intro o j _
      by_cases h : (M.getColumn j).isEmpty
      · simp [h, String.append_assoc]
      · have hb : (M.getColumn j).isEmpty = false := by simpa using h
        simp [hb, String.append_assoc]
        rw [foldl_append_join (fun c => toString c ++ " ") (M.getColumn j) o,
          String.append_assoc]
  · intro j
    exact (M.col j).sort_sorted (· ≤ ·)

/-!
## External reader

Embedding of `BipartiteAdjacencyMatrixReader::operator()(std::istream&, K)`
(`src/include/aleph/topology/io/BipartiteAdjacencyMatrix.hh`).  The
input stream is modelled as the list of its lines, each line the list of
numeric values it carries; `height` is the line count and `values` the
unrolled concatenation, exactly as the code computes them.  The result
records the externally visible effect on the caller's complex `K`:
`Except.error` for a thrown format error (the throw precedes the
assignment to `K`, so `K` is untouched), `Except.ok none` for the early
`return` on empty input (`K` untouched), and `Except.ok (some (h, w))`
when `K` is rebuilt from a matrix of the detected height and width. -/
def bipartiteRead (rows : List (List ℤ)) : Except String (Option (ℕ × ℕ)) :=
  let height := rows.length
  let values := rows.flatten
  if values.isEmpty then .ok none
  else if values.length % height ≠ 0 then
    .error "Format error: number of columns must not vary"
  else .ok (some (height, values.length / height))

/-- Claim C7, counterexample: the reader does not raise a format error on
every malformed input.  Empty input takes the early `return` (`K` is
untouched but no error is raised), and a non-rectangular file whose
total value count happens to be divisible by its line count — here rows
of lengths 3, 2 and 1 — is accepted and a complex is built from it. -/
theorem C7_reader_cex :
    bipartiteRead [] = Except.ok none
      ∧ bipartiteRead [[1, 2, 3], [4, 5], [6]] = Except.ok (some (3, 2)) := by
  exact ⟨rfl, rfl⟩

/-- Claim C7 (amended): the reader throws the format error exactly for
non-empty inputs whose total value count is not divisible by the line
count, and the throw happens before the simplicial complex is assigned,
so the core never observes partially-malformed state; empty input makes
the reader return early without constructing or modifying the complex
(and without an error); non-rectangular inputs whose total count is
divisible by the line count are not detected. -/
theorem C7_reader_boundary (rows : List (List ℤ)) :
    (rows.flatten = [] → bipartiteRead rows = .ok none)
      ∧ (rows.flatten ≠ [] → rows.flatten.length % rows.length ≠ 0 →
          bipartiteRead rows = .error "Format error: number of columns must not vary")
      ∧ (rows.flatten ≠ [] → rows.flatten.length % rows.length = 0 →
          bipartiteRead rows = .ok (some (rows.length, rows.flatten.length / rows.length))) := by
  refine ⟨?_, ?_, ?_⟩
  · intro h
    rw [bipartiteRead]
    simp [h]
  · intro h₁ h₂
    rw [bipartiteRead]
    simp only [List.isEmpty_iff, h₁, if_false, ite_not]
    exact if_neg (fun h => absurd h h₂)
  · intro h₁ h₂
    rw [bipartiteRead]
    simp [List.isEmpty_iff, h₁]
    rwa [List.length_flatten] at h₂

/-- Claim C7 (amended), witness: the empty file and a concrete
non-rectangular file with two lines and three values. -/
theorem C7_reader_boundary_w :
    bipartiteRead [] = Except.ok none
      ∧ bipartiteRead [[1, 2], [3]]
          = Except.error "Format error: number of columns must not vary" :=
  ⟨(C7_reader_boundary []).1 rfl,
   (C7_reader_boundary [[1, 2], [3]]).2.1 (by decide) (by decide)⟩

/-!
## GF(2) column sums

A column over GF(2) is a `Finset ℕ`; addition of columns is symmetric
difference.  `gsum` folds symmetric difference over a finite index set,
i.e. it is the GF(2) linear combination (with all coefficients 1) of the
columns selected by the index set.
-/

instance : Std.Commutative (α := Finset ℕ) symmDiff :=
  ⟨fun a b => symmDiff_comm a b⟩

instance : Std.Associative (α := Finset ℕ) symmDiff :=
  ⟨fun a b c => symmDiff_assoc a b c⟩

/-- GF(2) sum of the columns `f i` over the index set `T`. -/
def gsum (T : Finset ℕ) (f : ℕ → Finset ℕ) : Finset ℕ :=
  T.fold symmDiff ∅ f

theorem gsum_empty (f : ℕ → Finset ℕ) : gsum ∅ f = ∅ :=
  rfl

theorem gsum_insert {T : Finset ℕ} {a : ℕ} (f : ℕ → Finset ℕ) (h : a ∉ T) :
    gsum (insert a T) f = symmDiff (f a) (gsum T f) :=
  Finset.fold_insert h

theorem symmDiff_empty_right (s : Finset ℕ) : symmDiff s ∅ = s := by
  ext x
  simp [Finset.mem_symmDiff]

theorem symmDiff_empty_left (s : Finset ℕ) : symmDiff ∅ s = s := by
  ext x
  simp [Finset.mem_symmDiff]

theorem gsum_singleton (f : ℕ → Finset ℕ) (a : ℕ) : gsum {a} f = f a := by
  rw [show ({a} : Finset ℕ) = insert a ∅ from rfl, gsum_insert f (Finset.not_mem_empty a),
    gsum_empty, symmDiff_empty_right]

/-- Splitting a GF(2) sum at a member of the index set. -/
theorem gsum_erase (f : ℕ → Finset ℕ) {T : Finset ℕ} {a : ℕ} (h : a ∈ T) :
    gsum T f = symmDiff (f a) (gsum (T.erase a) f) := by
  conv_lhs => rw [← Finset.insert_erase h]
  exact gsum_insert f (Finset.not_mem_erase a T)

/-- Symmetric difference with a singleton: removal or insertion. -/
theorem symmDiff_singleton_of_mem {T : Finset ℕ} {a : ℕ} (h : a ∈ T) :
    symmDiff T {a} = T.erase a := by
  ext x
  simp only [Finset.mem_symmDiff, Finset.mem_singleton, Finset.mem_erase]
  constructor
  · rintro (⟨h₁, h₂⟩ | ⟨h₁, h₂⟩)
    · exact ⟨h₂, h₁⟩
    · exact absurd (h₁ ▸ h) h₂
  · rintro ⟨h₁, h₂⟩
    exact Or.inl ⟨h₂, h₁⟩

/-- Symmetric difference with a fresh singleton is insertion. -/
theorem symmDiff_singleton_of_not_mem {T : Finset ℕ} {a : ℕ} (h : a ∉ T) :
    symmDiff T {a} = insert a T := by
  ext x
  simp only [Finset.mem_symmDiff, Finset.mem_singleton, Finset.mem_insert]
  constructor
  · rintro (⟨h₁, h₂⟩ | ⟨h₁, h₂⟩)
    · exact Or.inr h₁
    · exact Or.inl h₁
  · rintro (rfl | h₁)
    · exact Or.inr ⟨rfl, h⟩
    · exact Or.inl ⟨h₁, fun he => h (he ▸ h₁)⟩

/-- GF(2) sum over an index set perturbed by one element. -/
theorem gsum_symmDiff_singleton (f : ℕ → Finset ℕ) (T : Finset ℕ) (a : ℕ) :
    gsum (symmDiff T {a}) f = symmDiff (gsum T f) (f a) := by
  by_cases h : a ∈ T
  · rw [symmDiff_singleton_of_mem h, gsum_erase f h, symmDiff_symmDiff_self']
  · rw [symmDiff_singleton_of_not_mem h, gsum_insert f h, symmDiff_comm]

/-- GF(2) sums are additive over symmetric differences of index sets. -/
theorem gsum_symmDiff (f : ℕ → Finset ℕ) (T₁ T₂ : Finset ℕ) :
    gsum (symmDiff T₁ T₂) f = symmDiff (gsum T₁ f) (gsum T₂ f) := by
  induction T₂ using Finset.induction_on generalizing T₁ with
  | empty => rw [symmDiff_empty_right, gsum_empty, symmDiff_empty_right]
  | insert h ih =>
    rename_i a T₂
    have hins : (insert a T₂ : Finset ℕ) = symmDiff {a} T₂ := by
      rw [symmDiff_comm, symmDiff_singleton_of_not_mem h]
    calc gsum (symmDiff T₁ (insert a T₂)) f
        = gsum (symmDiff (symmDiff T₁ {a}) T₂) f := by rw [hins, ← symmDiff_assoc]
      _ = symmDiff (gsum (symmDiff T₁ {a}) f) (gsum T₂ f) := ih _
      _ = symmDiff (symmDiff (gsum T₁ f) (f a)) (gsum T₂ f) := by
          rw [gsum_symmDiff_singleton]
      _ = symmDiff (gsum T₁ f) (symmDiff (f a) (gsum T₂ f)) := symmDiff_assoc _ _ _
      _ = symmDiff (gsum T₁ f) (gsum (insert a T₂) f) := by rw [gsum_insert f h]

/-- GF(2) sums of empty columns are empty. -/
theorem gsum_eq_empty (f : ℕ → Finset ℕ) {T : Finset ℕ} (h : ∀ i ∈ T, f i = ∅) :
    gsum T f = ∅ := by
  induction T using Finset.induction_on with
  | empty => rfl
  | insert hmem ih =>
    rename_i a T
    rw [gsum_insert f hmem, h a (Finset.mem_insert_self a T),
      ih (fun i hi => h i (Finset.mem_insert_of_mem hi)), symmDiff_empty_right]

/-- Empty terms can be dropped from a GF(2) sum. -/
theorem gsum_filter_ne_empty (f : ℕ → Finset ℕ) (T : Finset ℕ) :
    gsum T f = gsum (T.filter (fun i => f i ≠ ∅)) f := by
  induction T using Finset.induction_on with
  | empty => rfl
  | insert hmem ih =>
    rename_i a T
    rw [gsum_insert f hmem, Finset.filter_insert]
    by_cases ha : f a = ∅
    · rw [if_neg (by simp [ha]), ha, symmDiff_empty_left, ih]
    · rw [if_pos ha, gsum_insert f (fun hc => hmem (Finset.mem_of_mem_filter a hc)), ih]

/-- Elements of a symmetric difference of two columns with the same
maximum are strictly below that maximum. -/
theorem mem_symmDiff_lt_of_max_eq {a b : Finset ℕ} {p : ℕ}
    (ha : a.max = (p : WithBot ℕ)) (hb : b.max = (p : WithBot ℕ)) :
    ∀ x ∈ symmDiff a b, x < p := by
  intro x hx
  have hle : (x : WithBot ℕ) ≤ (p : WithBot ℕ) := by
    rw [Finset.mem_symmDiff] at hx
    rcases hx with ⟨h₁, _⟩ | ⟨h₁, _⟩
    · exact ha ▸ Finset.le_max h₁
    · exact hb ▸ Finset.le_max h₁
  have hne : x ≠ p := by
    rintro rfl
    rw [Finset.mem_symmDiff] at hx
    rcases hx with ⟨h₁, h₂⟩ | ⟨h₁, h₂⟩
    · exact h₂ (Finset.mem_of_max hb)
    · exact h₂ (Finset.mem_of_max ha)
  exact lt_of_le_of_ne (WithBot.coe_le_coe.1 hle) hne

/-- The symmetric difference of a column with a strictly lower-pivot
column keeps the pivot. -/
theorem max_symmDiff_of_max_lt {a b : Finset ℕ} {p : ℕ}
    (ha : a.max = (p : WithBot ℕ)) (hb : b.max < (p : WithBot ℕ)) :
    (symmDiff a b).max = (p : WithBot ℕ) := by
  have hpb : p ∉ b := fun hmem => absurd (Finset.le_max hmem) (not_le.2 hb)
  have hpmem : p ∈ symmDiff a b := by
    rw [Finset.mem_symmDiff]
    exact Or.inl ⟨Finset.mem_of_max ha, hpb⟩
  apply le_antisymm
  · rw [Finset.max_le_iff]
    intro x hx
    rw [Finset.mem_symmDiff] at hx
    rcases hx with ⟨h₁, _⟩ | ⟨h₁, _⟩
    · exact ha ▸ Finset.le_max h₁
    · exact le_of_lt (lt_of_le_of_lt (Finset.le_max h₁) hb)
  · exact Finset.le_max hpmem

/-- A GF(2) sum of non-empty columns with pairwise distinct pivots is
non-empty, and its pivot is one of the terms' pivots. -/
theorem gsum_max_of_distinct (f : ℕ → Finset ℕ) : ∀ (T : Finset ℕ),
    (∀ i ∈ T, f i ≠ ∅) →
    (∀ i ∈ T, ∀ j ∈ T, (f i).max = (f j).max → i = j) →
    T.Nonempty →
    ∃ k ∈ T, (gsum T f).max = (f k).max := by
  intro T
  induction T using Finset.strongInduction with
  | _ T ih =>
    intro hne hinj hT
    obtain ⟨k₀, hk₀, hmax⟩ := T.exists_max_image (fun i => (f i).max) hT
    obtain ⟨p, hp⟩ := Finset.max_of_nonempty (Finset.nonempty_iff_ne_empty.2 (hne k₀ hk₀))
    by_cases hT' : (T.erase k₀).Nonempty
    · obtain ⟨k', hk', hmax'⟩ := ih (T.erase k₀) (Finset.erase_ssubset hk₀)
        (fun i hi => hne i (Finset.mem_of_mem_erase hi))
        (fun i hi j hj h => hinj i (Finset.mem_of_mem_erase hi) j
          (Finset.mem_of_mem_erase hj) h)
        hT'
      have hk'T : k' ∈ T := Finset.mem_of_mem_erase hk'
      have hlt : (f k').max < (f k₀).max := by
        rcases lt_or_eq_of_le (hmax k' hk'T) with h | h
        · exact h
        · exact absurd (hinj k' hk'T k₀ hk₀ h) (Finset.ne_of_mem_erase hk')
      refine ⟨k₀, hk₀, ?_⟩
      rw [gsum_erase f hk₀, hp]
      have hblt : (gsum (T.erase k₀) f).max < (p : WithBot ℕ) := by
        rw [hmax']
        exact lt_of_lt_of_le hlt (le_of_eq hp)
      exact max_symmDiff_of_max_lt hp hblt
    · have hsing : T = {k₀} := by
        apply Finset.eq_singleton_iff_unique_mem.2
        refine ⟨hk₀, fun x hx => ?_⟩
        by_contra hne'
        exact hT' ⟨x, Finset.mem_erase.2 ⟨hne', hx⟩⟩
      subst hsing
      exact ⟨k₀, Finset.mem_singleton_self k₀, by rw [gsum_singleton]⟩

/-!
## Reduction engine

Modelled from the spec (§4.3): the reduction engine's code
(`Standard.hh`, `Twist.hh`, `PersistencePairs.hh`) is not in the tree;
the two strategies are modelled from the spec's description.  The state
of a reduction carries the mutated columns, the pivot-ownership map
("a mapping from pivot-index to the column index that currently owns
it", realised as an indexed array per §9), and the set of emitted
(birth, death) index pairs.
-/

/-- Reduction state: current columns, pivot-ownership lookup table, and
the emitted persistence pairs. -/
structure RState where
  cols : List (Finset ℕ)
  lut : List (Option ℕ)
  pairs : Finset (ℕ × ℕ)
deriving DecidableEq

/-- Current contents of column `j`. -/
def colAt (st : RState) (j : ℕ) : Finset ℕ :=
  st.cols.getD j ∅

/-- Current owner of pivot index `q`, if any. -/
def lutAt (st : RState) (q : ℕ) : Option ℕ :=
  st.lut.getD q none

/-- Pivot of column `j` (its maximum index), `none` when empty. -/
def pivotOf (st : RState) (j : ℕ) : Option ℕ :=
  (colAt st j).max

/-- Modelled from the spec: the inner reduction loop for one column `j`
(§4.3, step 1–2).  While the pivot of column `j` exists and is owned by
an earlier column `k`, add column `k` into column `j`; when the loop
stops with an unowned pivot `p`, register `p → j` and emit the pair
`(p, j)`; when the column becomes empty, emit nothing.  With
`clearing = true` (the twist strategy, §4.3) the birth column `p` is
cleared the moment the pair `(p, j)` is emitted.  The pivot strictly
decreases at every addition, so the loop terminates; `fuel` bounds the
number of iterations and every use supplies a provably sufficient
amount.  `claimStep` is the pair-registration step and `addStep` one
`addColumns(k, j)` of that loop. -/
def claimStep (clearing : Bool) (st : RState) (p j : ℕ) : RState :=
  { st with
    cols := if clearing then st.cols.set p ∅ else st.cols,
    lut := st.lut.set p (some j),
    pairs := insert (p, j) st.pairs }

/-- One `addColumns(k, j)` performed by the reduction loop. -/
def addStep (st : RState) (j k : ℕ) : RState :=
  { st with cols := st.cols.set j (symmDiff (colAt st j) (colAt st k)) }

/-- The inner reduction loop for one column `j`; see the comment on
`claimStep` above. -/
def reduceLoop (clearing : Bool) : ℕ → RState → ℕ → RState
  | 0, st, _ => st
  | fuel + 1, st, j =>
    match pivotOf st j with
    | none => st
    | some p =>
      match lutAt st p with
      | none => claimStep clearing st p j
      | some k => reduceLoop clearing fuel (addStep st j k) j

/-- Process the given columns in order with the single-column loop. -/
def runReduction (clearing : Bool) (fuel : ℕ) (order : List ℕ) (st : RState) : RState :=
  order.foldl (fun st j => reduceLoop clearing fuel st j) st

/-- The state a reduction starts from: the matrix's columns, an empty
ownership table, no pairs. -/
def initState (M : BoundaryMatrix) : RState :=
  ⟨M.columns, List.replicate M.getNumColumns none, ∅⟩

/-- Modelled from the spec: standard reduction (§4.3) iterates the
columns `j = 0 .. N−1` in increasing order. -/
def standardReduction (M : BoundaryMatrix) : RState :=
  runReduction false (M.getNumColumns + 1) (List.range M.getNumColumns) (initState M)

/-- The set of (birth, death) index pairs produced by standard
reduction. -/
def standardPairs (M : BoundaryMatrix) : Finset (ℕ × ℕ) :=
  (standardReduction M).pairs

/-- `getDimension()` of the representation: the maximum dimension over
all columns. -/
def maxDimension (M : BoundaryMatrix) : ℕ :=
  ((List.range M.getNumColumns).map M.getDimension).foldr max 0

/-- The columns of simplex dimension `d`, in increasing index order. -/
def bandList (M : BoundaryMatrix) (d : ℕ) : List ℕ :=
  (List.range M.getNumColumns).filter (fun j => M.getDimension j = d)

/-- Modelled from the spec: the twist strategy's processing order —
decreasing simplex dimension, highest dimension first, each dimension
band in increasing column order (§4.3). -/
def twistOrder (M : BoundaryMatrix) : List ℕ :=
  ((List.range (maxDimension M + 1)).reverse).flatMap (bandList M)

/-- Modelled from the spec: twist reduction (§4.3) processes the bands
in decreasing dimension and clears the birth column of every emitted
pair.  The spec's "already resolved" flag only ever marks columns that
have just been cleared, and the single-column loop is a no-op on an
empty column (it has no pivot), so skipping flagged columns coincides
with processing them and is not modelled separately. -/
def twistReduction (M : BoundaryMatrix) : RState :=
  runReduction true (M.getNumColumns + 1) (twistOrder M) (initState M)

/-- The set of (birth, death) index pairs produced by twist
reduction. -/
def twistPairs (M : BoundaryMatrix) : Finset (ℕ × ℕ) :=
  (twistReduction M).pairs

/-- Triangularity (spec §3): every entry of column `j` is an earlier
index. -/
def BoundaryMatrix.triangular (M : BoundaryMatrix) : Prop :=
  ∀ j < M.getNumColumns, ∀ r ∈ M.col j, r < j

/-- Dimension compatibility: every boundary face of a simplex is a
simplex of the dimension directly below (spec §3/§6: column `j`'s
indices are the positions of simplex `j`'s codimension-1 faces). -/
def BoundaryMatrix.dimCompatible (M : BoundaryMatrix) : Prop :=
  ∀ j < M.getNumColumns, ∀ r ∈ M.col j, M.getDimension r + 1 = M.getDimension j

/-- The boundary of a GF(2) chain (a set of column indices): the GF(2)
sum of the columns it selects. -/
def chainBoundary (M : BoundaryMatrix) (c : Finset ℕ) : Finset ℕ :=
  gsum c M.col

/-- Fundamental boundary identity of a simplicial complex: the boundary
of every column is a cycle (`∂ ∘ ∂ = 0` over GF(2)). -/
def BoundaryMatrix.squaredZero (M : BoundaryMatrix) : Prop :=
  ∀ j < M.getNumColumns, chainBoundary M (M.col j) = ∅

/-- A valid boundary matrix of a filtered simplicial complex (spec §1,
§3, §6): triangular, dimension-compatible, and with vanishing squared
boundary. -/
def ValidBoundaryMatrix (M : BoundaryMatrix) : Prop :=
  M.triangular ∧ M.dimCompatible ∧ M.squaredZero

/-!
## Basic facts about the reduction state
-/

theorem colAt_initState (M : BoundaryMatrix) (j : ℕ) :
    colAt (initState M) j = M.col j :=
  rfl

theorem lutAt_initState (M : BoundaryMatrix) (q : ℕ) :
    lutAt (initState M) q = none := by
  rw [lutAt, initState]
  rcases Nat.lt_or_ge q M.getNumColumns with h | h
  · rw [List.getD_eq_getElem _ _ (by simpa using h)]
    simp
  · exact List.getD_eq_default _ _ (by simpa using h)

theorem pairs_initState (M : BoundaryMatrix) : (initState M).pairs = ∅ :=
  rfl

theorem pivotOf_eq_none_iff {st : RState} {j : ℕ} :
    pivotOf st j = none ↔ colAt st j = ∅ :=
  Finset.max_eq_bot

theorem pivotOf_max {st : RState} {j p : ℕ} (h : pivotOf st j = some p) :
    (colAt st j).max = (p : WithBot ℕ) :=
  h

theorem pivot_mem {st : RState} {j p : ℕ} (h : pivotOf st j = some p) :
    p ∈ colAt st j :=
  Finset.mem_of_max (pivotOf_max h)

theorem reduceLoop_zero (cl : Bool) (st : RState) (j : ℕ) :
    reduceLoop cl 0 st j = st :=
  rfl

theorem reduceLoop_pivot_none {cl : Bool} {fuel : ℕ} {st : RState} {j : ℕ}
    (h : pivotOf st j = none) :
    reduceLoop cl (fuel + 1) st j = st := by
  rw [reduceLoop, h]

theorem reduceLoop_claim {cl : Bool} {fuel : ℕ} {st : RState} {j p : ℕ}
    (hp : pivotOf st j = some p) (hl : lutAt st p = none) :
    reduceLoop cl (fuel + 1) st j = claimStep cl st p j := by
  rw [reduceLoop, hp]
  simp [hl]

theorem reduceLoop_add {cl : Bool} {fuel : ℕ} {st : RState} {j p k : ℕ}
    (hp : pivotOf st j = some p) (hl : lutAt st p = some k) :
    reduceLoop cl (fuel + 1) st j = reduceLoop cl fuel (addStep st j k) j := by
  rw [reduceLoop, hp]
  simp [hl]

theorem cols_length_addStep (st : RState) (j k : ℕ) :
    (addStep st j k).cols.length = st.cols.length := by
  simp [addStep]

theorem colAt_addStep_self {st : RState} {j : ℕ} (k : ℕ) (h : j < st.cols.length) :
    colAt (addStep st j k) j = symmDiff (colAt st j) (colAt st k) :=
  getD_set_self _ h

theorem colAt_addStep_ne {st : RState} {j m : ℕ} (k : ℕ) (h : j ≠ m) :
    colAt (addStep st j k) m = colAt st m :=
  getD_set_ne _ h

theorem lutAt_addStep (st : RState) (j k q : ℕ) :
    lutAt (addStep st j k) q = lutAt st q :=
  rfl

theorem pairs_addStep (st : RState) (j k : ℕ) :
    (addStep st j k).pairs = st.pairs :=
  rfl

theorem lut_addStep (st : RState) (j k : ℕ) :
    (addStep st j k).lut = st.lut :=
  rfl

theorem cols_length_claimStep (cl : Bool) (st : RState) (p j : ℕ) :
    (claimStep cl st p j).cols.length = st.cols.length := by
  cases cl <;> simp [claimStep]

theorem lut_length_claimStep (cl : Bool) (st : RState) (p j : ℕ) :
    (claimStep cl st p j).lut.length = st.lut.length := by
  simp [claimStep]

theorem colAt_claimStep_ne {cl : Bool} {st : RState} {p m : ℕ} (j : ℕ) (h : p ≠ m) :
    colAt (claimStep cl st p j) m = colAt st m := by
  cases cl
  · rfl
  · exact getD_set_ne _ h

theorem colAt_claimStep_false (st : RState) (p j m : ℕ) :
    colAt (claimStep false st p j) m = colAt st m :=
  rfl

theorem colAt_claimStep_true_self {st : RState} {p : ℕ} (j : ℕ) (h : p < st.cols.length) :
    colAt (claimStep true st p j) p = ∅ :=
  getD_set_self _ h

theorem colAt_claimStep_true_self_any (st : RState) (p j : ℕ) :
    colAt (claimStep true st p j) p = ∅ := by
  rcases Nat.lt_or_ge p st.cols.length with h | h
  · exact getD_set_self _ h
  · show (st.cols.set p ∅).getD p ∅ = ∅
    rw [List.getD_eq_default]
    rw [List.length_set]
    exact h

theorem lut_claimStep (cl : Bool) (st : RState) (p j : ℕ) :
    (claimStep cl st p j).lut = st.lut.set p (some j) :=
  rfl

theorem lutAt_claimStep_ne {st : RState} {p q : ℕ} (cl : Bool) (j : ℕ) (h : p ≠ q) :
    lutAt (claimStep cl st p j) q = lutAt st q :=
  getD_set_ne _ h

theorem lutAt_claimStep_self {st : RState} {p : ℕ} (cl : Bool) (j : ℕ)
    (h : p < st.lut.length) :
    lutAt (claimStep cl st p j) p = some j :=
  getD_set_self _ h

theorem pairs_claimStep (cl : Bool) (st : RState) (p j : ℕ) :
    (claimStep cl st p j).pairs = insert (p, j) st.pairs :=
  rfl

/-!
## Reduction invariants

`StInv M P st` is the invariant of a reduction state reachable after
processing the set `P` of columns of the matrix `M`: lengths match, the
current columns are triangular and dimension-compatible, and the
ownership table is sound (owners are processed columns whose current
pivot is the owned slot) and complete (every processed non-empty column
owns its pivot).
-/

structure StInv (M : BoundaryMatrix) (P : ℕ → Prop) (st : RState) : Prop where
  lcols : st.cols.length = M.getNumColumns
  llut : st.lut.length = M.getNumColumns
  closure : ∀ j r, r ∈ colAt st j → r < j ∧ M.getDimension r + 1 = M.getDimension j
  own_mem : ∀ q k, lutAt st q = some k → P k
  own_max : ∀ q k, lutAt st q = some k → (colAt st k).max = (q : WithBot ℕ)
  complete : ∀ (k p : ℕ), P k → (colAt st k).max = (p : WithBot ℕ) → lutAt st p = some k

/-- Master lemma for the single-column loop: starting from an invariant
state, processing an unprocessed column `j` with sufficient fuel yields
an invariant state for the enlarged processed set, and either the column
reduced to zero (no pair, no ownership change) or an unowned pivot `p`
was claimed (pair `(p, j)` emitted, slot `p` registered, and — under the
twist strategy — column `p` cleared); all other columns are untouched. -/
theorem reduceLoop_master (M : BoundaryMatrix) (cl : Bool) (P : ℕ → Prop) :
    ∀ (fuel : ℕ) (st : RState) (j : ℕ),
    StInv M P st →
    ¬ P j →
    j < M.getNumColumns →
    (∀ q k, lutAt st q = some k → M.getDimension k = M.getDimension j → k < j) →
    (∀ p, pivotOf st j = some p → p < fuel) →
    (cl = true → ∀ c, M.getDimension c + 1 = M.getDimension j → ¬ P c) →
    StInv M (fun k => k = j ∨ P k) (reduceLoop cl fuel st j)
    ∧ ((colAt (reduceLoop cl fuel st j) j = ∅
          ∧ (reduceLoop cl fuel st j).lut = st.lut
          ∧ (reduceLoop cl fuel st j).pairs = st.pairs
          ∧ ∀ m, m ≠ j → colAt (reduceLoop cl fuel st j) m = colAt st m)
       ∨ (∃ p, pivotOf (reduceLoop cl fuel st j) j = some p
            ∧ lutAt st p = none
            ∧ p < j ∧ M.getDimension p + 1 = M.getDimension j
            ∧ (reduceLoop cl fuel st j).lut = st.lut.set p (some j)
            ∧ (reduceLoop cl fuel st j).pairs = insert (p, j) st.pairs
            ∧ (cl = true → colAt (reduceLoop cl fuel st j) p = ∅)
            ∧ ∀ m, m ≠ j → (cl = true → m ≠ p) →
                colAt (reduceLoop cl fuel st j) m = colAt st m)) := by
  have hstop : ∀ (st : RState) (j : ℕ), StInv M P st → ¬ P j → colAt st j = ∅ →
      StInv M (fun k => k = j ∨ P k) st := by
    intro st j I hjP hempty
    refine ⟨I.lcols, I.llut, I.closure, fun q k h => Or.inr (I.own_mem q k h), I.own_max, ?_⟩
    intro k p hk hp
    rcases hk with rfl | hk
    · rw [hempty] at hp
      exact absurd hp (by simp)
    · exact I.complete k p hk hp
  intro fuel
  induction fuel with
  | zero =>
    intro st j I hjP hjN hltj hfuel hclear
    have hnone : pivotOf st j = none := by
      cases hpv : pivotOf st j with
      | none => rfl
      | some p => exact absurd (hfuel p hpv) (Nat.not_lt_zero p)
    have hempty : colAt st j = ∅ := pivotOf_eq_none_iff.1 hnone
    rw [reduceLoop_zero]
    exact ⟨hstop st j I hjP hempty, Or.inl ⟨hempty, rfl, rfl, fun m _ => rfl⟩⟩
  | succ fuel ih =>
    intro st j I hjP hjN hltj hfuel hclear
    cases hpv : pivotOf st j with
    | none =>
      have hempty : colAt st j = ∅ := pivotOf_eq_none_iff.1 hpv
      rw [reduceLoop_pivot_none hpv]
      exact ⟨hstop st j I hjP hempty, Or.inl ⟨hempty, rfl, rfl, fun m _ => rfl⟩⟩
    | some p =>
      have hpmem : p ∈ colAt st j := pivot_mem hpv
      obtain ⟨hpj, hpd⟩ := I.closure j p hpmem
      cases hl : lutAt st p with
      | none =>
        rw [reduceLoop_claim hpv hl]
        have hplen : p < st.cols.length := by rw [I.lcols]; omega
        have hpllen : p < st.lut.length := by rw [I.llut]; omega
        have hjne : p ≠ j := Nat.ne_of_lt hpj
        have hcolj : colAt (claimStep cl st p j) j = colAt st j := colAt_claimStep_ne j hjne
        have hlutself : lutAt (claimStep cl st p j) p = some j :=
          lutAt_claimStep_self cl j hpllen
        have hcol_other : ∀ m, (cl = true → m ≠ p) →
            colAt (claimStep cl st p j) m = colAt st m := by
          intro m hm
          cases cl with
          | false => exact colAt_claimStep_false st p j m
          | true => exact colAt_claimStep_ne j (fun he => (hm rfl) he.symm)
        have hPnotp : ∀ k, P k → cl = true → k ≠ p := by
          intro k hk hcl he
          exact (hclear hcl p hpd) (he ▸ hk)
        refine ⟨⟨?_, ?_, ?_, ?_, ?_, ?_⟩, Or.inr ⟨p, ?_, hl, hpj, hpd, rfl, rfl, ?_, ?_⟩⟩
        · rw [cols_length_claimStep]; exact I.lcols
        · rw [lut_length_claimStep]; exact I.llut
        · intro m r hr
          rcases eq_or_ne p m with hpm | hpm
          · subst hpm
            cases cl with
            | false => exact I.closure p r hr
            | true =>
              rw [colAt_claimStep_true_self j hplen] at hr
              exact absurd hr (Finset.not_mem_empty r)
          · rw [colAt_claimStep_ne j hpm] at hr
            exact I.closure m r hr
        · intro q k h
          rcases eq_or_ne p q with rfl | hpq
          · rw [hlutself] at h
            exact Or.inl (Option.some.inj h).symm
          · rw [lutAt_claimStep_ne cl j hpq] at h
            exact Or.inr (I.own_mem q k h)
        · intro q k h
          rcases eq_or_ne p q with rfl | hpq
          · rw [hlutself] at h
            obtain rfl : j = k := Option.some.inj h
            rw [hcolj]
            exact pivotOf_max hpv
          · rw [lutAt_claimStep_ne cl j hpq] at h
            have hkP := I.own_mem q k h
            have hkcol : colAt (claimStep cl st p j) k = colAt st k :=
              hcol_other k (fun hcl => hPnotp k hkP hcl)
            rw [hkcol]
            exact I.own_max q k h
        · intro k p' hk hp'
          rcases hk with rfl | hkP
          · rw [hcolj] at hp'
            have hpp' : p' = p := by
              have hmax := pivotOf_max hpv
              rw [hmax] at hp'
              exact (WithBot.coe_inj.1 hp').symm
            subst hpp'
            exact hlutself
          · have hkcol : colAt (claimStep cl st p j) k = colAt st k :=
              hcol_other k (fun hcl => hPnotp k hkP hcl)
            rw [hkcol] at hp'
            have hlut' := I.complete k p' hkP hp'
            have hp'p : p' ≠ p := by
              intro he
              rw [he, hl] at hlut'
              exact Option.noConfusion hlut'
            rw [lutAt_claimStep_ne cl j (fun he => hp'p he.symm)]
            exact hlut'
        · show (colAt (claimStep cl st p j) j).max = (p : WithBot ℕ)
          rw [hcolj]
          exact pivotOf_max hpv
        · intro hcl
          subst hcl
          exact colAt_claimStep_true_self j hplen
        · intro m hmj hmp
          exact hcol_other m (fun hcl => hmp hcl)
      | some k =>
        rw [reduceLoop_add hpv hl]
        have hkP : P k := I.own_mem p k hl
        have hkmax : (colAt st k).max = (p : WithBot ℕ) := I.own_max p k hl
        have hpk : p ∈ colAt st k := Finset.mem_of_max hkmax
        have hdk : M.getDimension k = M.getDimension j := by
          obtain ⟨_, hd1⟩ := I.closure k p hpk
          omega
        have hkj : k < j := hltj p k hl hdk
        have hjlen : j < st.cols.length := by rw [I.lcols]; exact hjN
        have hcolj' : colAt (addStep st j k) j = symmDiff (colAt st j) (colAt st k) :=
          colAt_addStep_self k hjlen
        have hkne : j ≠ k := Nat.ne_of_gt hkj
        have I' : StInv M P (addStep st j k) := by
          refine ⟨by rw [cols_length_addStep]; exact I.lcols, I.llut, ?_, I.own_mem, ?_, ?_⟩
          · intro m r hr
            rcases eq_or_ne j m with hjm | hjm
            · subst hjm
              rw [hcolj'] at hr
              rw [Finset.mem_symmDiff] at hr
              rcases hr with ⟨h₁, _⟩ | ⟨h₁, _⟩
              · exact I.closure j r h₁
              · obtain ⟨hrk, hrd⟩ := I.closure k r h₁
                exact ⟨lt_trans hrk hkj, by omega⟩
            · rw [colAt_addStep_ne k hjm] at hr
              exact I.closure m r hr
          · intro q k' h
            have hk'P := I.own_mem q k' h
            have hk'j : j ≠ k' := fun he => hjP (he ▸ hk'P)
            rw [colAt_addStep_ne k hk'j]
            exact I.own_max q k' h
          · intro k' p' hk' hp'
            have hk'j : j ≠ k' := fun he => hjP (he ▸ hk')
            rw [colAt_addStep_ne k hk'j] at hp'
            exact I.complete k' p' hk' hp'
        have hfuel' : ∀ p', pivotOf (addStep st j k) j = some p' → p' < fuel := by
          intro p' hpv'
          have hp'mem : p' ∈ colAt (addStep st j k) j := pivot_mem hpv'
          rw [hcolj'] at hp'mem
          have hp'p : p' < p :=
            mem_symmDiff_lt_of_max_eq (pivotOf_max hpv) hkmax p' hp'mem
          have hpfuel : p < fuel + 1 := hfuel p hpv
          omega
        obtain ⟨Iout, hcases⟩ := ih (addStep st j k) j I' hjP hjN hltj hfuel' hclear
        refine ⟨Iout, ?_⟩
        rcases hcases with ⟨h₁, h₂, h₃, h₄⟩ | ⟨p', h₁, h₂, h₃, h₄, h₅, h₆, h₇, h₈⟩
        · refine Or.inl ⟨h₁, h₂, h₃, fun m hm => ?_⟩
          rw [h₄ m hm, colAt_addStep_ne k (fun he => hm he.symm)]
        · refine Or.inr ⟨p', h₁, h₂, h₃, h₄, h₅, h₆, h₇, fun m hmj hmp => ?_⟩
          rw [h₈ m hmj hmp, colAt_addStep_ne k (fun he => hmj he.symm)]

/-- Representation invariant of a clearing-free reduction: every current
column is the GF(2) sum of a set of original columns of the same
dimension — its own original column plus original columns of earlier,
already-processed indices.  This is the change-of-basis fact behind the
twist optimization. -/
def RepInv (M : BoundaryMatrix) (P : ℕ → Prop) (st : RState) : Prop :=
  ∀ k, ∃ T : Finset ℕ,
    colAt st k = gsum T M.col ∧ k ∈ T
      ∧ ∀ i ∈ T, M.getDimension i = M.getDimension k ∧ i ≤ k ∧ (i ≠ k → P i)

theorem RepInv.mono {M : BoundaryMatrix} {P P' : ℕ → Prop} {st : RState}
    (h : RepInv M P st) (hPP : ∀ k, P k → P' k) : RepInv M P' st := by
  intro k
  obtain ⟨T, h₁, h₂, h₃⟩ := h k
  exact ⟨T, h₁, h₂, fun i hi => ⟨(h₃ i hi).1, (h₃ i hi).2.1, fun hik => hPP i ((h₃ i hi).2.2 hik)⟩⟩

/-- The clearing-free loop preserves the representation invariant. -/
theorem reduceLoop_rep (M : BoundaryMatrix) (P : ℕ → Prop) :
    ∀ (fuel : ℕ) (st : RState) (j : ℕ),
    StInv M P st →
    ¬ P j →
    j < M.getNumColumns →
    (∀ q k, lutAt st q = some k → M.getDimension k = M.getDimension j → k < j) →
    RepInv M P st →
    RepInv M (fun k => k = j ∨ P k) (reduceLoop false fuel st j) := by
  intro fuel
  induction fuel with
  | zero =>
    intro st j I hjP hjN hltj R
    exact (R.mono (fun k hk => Or.inr hk))
  | succ fuel ih =>
    intro st j I hjP hjN hltj R
    cases hpv : pivotOf st j with
    | none =>
      rw [reduceLoop_pivot_none hpv]
      exact (R.mono (fun k hk => Or.inr hk))
    | some p =>
      have hpmem : p ∈ colAt st j := pivot_mem hpv
      obtain ⟨hpj, hpd⟩ := I.closure j p hpmem
      cases hl : lutAt st p with
      | none =>
        rw [reduceLoop_claim hpv hl]
        intro m
        obtain ⟨T, h₁, h₂, h₃⟩ := R m
        exact ⟨T, by rw [colAt_claimStep_false]; exact h₁, h₂,
          fun i hi => ⟨(h₃ i hi).1, (h₃ i hi).2.1, fun hik => Or.inr ((h₃ i hi).2.2 hik)⟩⟩
      | some k =>
        rw [reduceLoop_add hpv hl]
        have hkP : P k := I.own_mem p k hl
        have hkmax : (colAt st k).max = (p : WithBot ℕ) := I.own_max p k hl
        have hpk : p ∈ colAt st k := Finset.mem_of_max hkmax
        have hdk : M.getDimension k = M.getDimension j := by
          obtain ⟨_, hd1⟩ := I.closure k p hpk
          omega
        have hkj : k < j := hltj p k hl hdk
        have hjlen : j < st.cols.length := by rw [I.lcols]; exact hjN
        have hcolj' : colAt (addStep st j k) j = symmDiff (colAt st j) (colAt st k) :=
          colAt_addStep_self k hjlen
        have hkne : j ≠ k := Nat.ne_of_gt hkj
        have I' : StInv M P (addStep st j k) := by
          refine ⟨by rw [cols_length_addStep]; exact I.lcols, I.llut, ?_, I.own_mem, ?_, ?_⟩
          · intro m r hr
            rcases eq_or_ne j m with hjm | hjm
            · subst hjm
              rw [hcolj'] at hr
              rw [Finset.mem_symmDiff] at hr
              rcases hr with ⟨h₁, _⟩ | ⟨h₁, _⟩
              · exact I.closure j r h₁
              · obtain ⟨hrk, hrd⟩ := I.closure k r h₁
                exact ⟨lt_trans hrk hkj, by omega⟩
            · rw [colAt_addStep_ne k hjm] at hr
              exact I.closure m r hr
          · intro q k' h
            have hk'P := I.own_mem q k' h
            have hk'j : j ≠ k' := fun he => hjP (he ▸ hk'P)
            rw [colAt_addStep_ne k hk'j]
            exact I.own_max q k' h
          · intro k' p' hk' hp'
            have hk'j : j ≠ k' := fun he => hjP (he ▸ hk')
            rw [colAt_addStep_ne k hk'j] at hp'
            exact I.complete k' p' hk' hp'
        have R' : RepInv M P (addStep st j k) := by
          intro m
          rcases eq_or_ne j m with hjm | hjm
          · subst hjm
            obtain ⟨Tj, hj₁, hj₂, hj₃⟩ := R j
            obtain ⟨Tk, hk₁, hk₂, hk₃⟩ := R k
            refine ⟨symmDiff Tj Tk, ?_, ?_, ?_⟩
            · rw [hcolj', hj₁, hk₁, gsum_symmDiff]
            · rw [Finset.mem_symmDiff]
              refine Or.inl ⟨hj₂, fun hmem => ?_⟩
              have := (hk₃ j hmem).2.1
              omega
            · intro i hi
              rw [Finset.mem_symmDiff] at hi
              rcases hi with ⟨h₁, _⟩ | ⟨h₁, _⟩
              · exact hj₃ i h₁
              · obtain ⟨hd, hle, hP⟩ := hk₃ i h₁
                refine ⟨by omega, by omega, fun _ => ?_⟩
                rcases eq_or_ne i k with rfl | hik
                · exact hkP
                · exact hP hik
          · obtain ⟨T, h₁, h₂, h₃⟩ := R m
            exact ⟨T, by rw [colAt_addStep_ne k hjm]; exact h₁, h₂, h₃⟩
        exact ih (addStep st j k) j I' hjP hjN hltj R'

/-- Lockstep lemma: two reductions of the same column `j` from states
that agree on column `j`, on the ownership slots of its pivot dimension,
and on the columns of the owners recorded there, perform exactly the
same loop — they end with equal reduced columns `j` and either both emit
nothing or both emit the same pair `(p, j)` and register the same
slot. -/
theorem reduceLoop_lockstep (M : BoundaryMatrix) (cl₁ cl₂ : Bool) (P₁ : ℕ → Prop) :
    ∀ (fuel : ℕ) (st₁ st₂ : RState) (j : ℕ),
    StInv M P₁ st₁ →
    ¬ P₁ j →
    (∀ q k, lutAt st₁ q = some k → M.getDimension k = M.getDimension j → k < j) →
    colAt st₁ j = colAt st₂ j →
    (∀ q, M.getDimension q + 1 = M.getDimension j → lutAt st₁ q = lutAt st₂ q) →
    (∀ q k, M.getDimension q + 1 = M.getDimension j → lutAt st₁ q = some k →
      colAt st₁ k = colAt st₂ k) →
    colAt (reduceLoop cl₁ fuel st₁ j) j = colAt (reduceLoop cl₂ fuel st₂ j) j
    ∧ (((reduceLoop cl₁ fuel st₁ j).lut = st₁.lut
          ∧ (reduceLoop cl₂ fuel st₂ j).lut = st₂.lut
          ∧ (reduceLoop cl₁ fuel st₁ j).pairs = st₁.pairs
          ∧ (reduceLoop cl₂ fuel st₂ j).pairs = st₂.pairs
          ∧ (∀ m, m ≠ j → colAt (reduceLoop cl₁ fuel st₁ j) m = colAt st₁ m)
          ∧ (∀ m, m ≠ j → colAt (reduceLoop cl₂ fuel st₂ j) m = colAt st₂ m))
       ∨ (∃ p, M.getDimension p + 1 = M.getDimension j ∧ p < j
            ∧ lutAt st₁ p = none ∧ lutAt st₂ p = none
            ∧ (reduceLoop cl₁ fuel st₁ j).lut = st₁.lut.set p (some j)
            ∧ (reduceLoop cl₂ fuel st₂ j).lut = st₂.lut.set p (some j)
            ∧ (reduceLoop cl₁ fuel st₁ j).pairs = insert (p, j) st₁.pairs
            ∧ (reduceLoop cl₂ fuel st₂ j).pairs = insert (p, j) st₂.pairs
            ∧ (∀ m, m ≠ j → (cl₁ = true → m ≠ p) →
                colAt (reduceLoop cl₁ fuel st₁ j) m = colAt st₁ m)
            ∧ (∀ m, m ≠ j → (cl₂ = true → m ≠ p) →
                colAt (reduceLoop cl₂ fuel st₂ j) m = colAt st₂ m)
            ∧ (cl₁ = true → colAt (reduceLoop cl₁ fuel st₁ j) p = ∅)
            ∧ (cl₂ = true → colAt (reduceLoop cl₂ fuel st₂ j) p = ∅))) := by
  intro fuel
  induction fuel with
  | zero =>
    intro st₁ st₂ j I₁ hjP hltj hcj hlb hco
    exact ⟨hcj, Or.inl ⟨rfl, rfl, rfl, rfl, fun m _ => rfl, fun m _ => rfl⟩⟩
  | succ fuel ih =>
    intro st₁ st₂ j I₁ hjP hltj hcj hlb hco
    have hpv₂ : pivotOf st₂ j = pivotOf st₁ j := by
      rw [pivotOf, pivotOf, hcj]
    cases hpv : pivotOf st₁ j with
    | none =>
      rw [reduceLoop_pivot_none hpv, reduceLoop_pivot_none (hpv₂.trans hpv)]
      exact ⟨hcj, Or.inl ⟨rfl, rfl, rfl, rfl, fun m _ => rfl, fun m _ => rfl⟩⟩
    | some p =>
      have hpmem : p ∈ colAt st₁ j := pivot_mem hpv
      obtain ⟨hpj, hpd⟩ := I₁.closure j p hpmem
      have hlbp := hlb p hpd
      cases hl : lutAt st₁ p with
      | none =>
        have hl₂ : lutAt st₂ p = none := by rw [← hlbp]; exact hl
        rw [reduceLoop_claim hpv hl, reduceLoop_claim (hpv₂.trans hpv) hl₂]
        have hjne : p ≠ j := Nat.ne_of_lt hpj
        refine ⟨?_, Or.inr ⟨p, hpd, hpj, hl, hl₂, rfl, rfl, rfl, rfl, ?_, ?_, ?_, ?_⟩⟩
        · rw [colAt_claimStep_ne j hjne, colAt_claimStep_ne j hjne]
          exact hcj
        · intro m hmj hmp
          cases cl₁ with
          | false => exact colAt_claimStep_false st₁ p j m
          | true => exact colAt_claimStep_ne j (fun he => (hmp rfl) he.symm)
        · intro m hmj hmp
          cases cl₂ with
          | false => exact colAt_claimStep_false st₂ p j m
          | true => exact colAt_claimStep_ne j (fun he => (hmp rfl) he.symm)
        · intro hcl
          subst hcl
          exact colAt_claimStep_true_self_any st₁ p j
        · intro hcl
          subst hcl
          exact colAt_claimStep_true_self_any st₂ p j
      | some k =>
        have hl₂ : lutAt st₂ p = some k := by rw [← hlbp]; exact hl
        rw [reduceLoop_add hpv hl, reduceLoop_add (hpv₂.trans hpv) hl₂]
        have hkP : P₁ k := I₁.own_mem p k hl
        have hkmax : (colAt st₁ k).max = (p : WithBot ℕ) := I₁.own_max p k hl
        have hpk : p ∈ colAt st₁ k := Finset.mem_of_max hkmax
        have hdk : M.getDimension k = M.getDimension j := by
          obtain ⟨_, hd1⟩ := I₁.closure k p hpk
          omega
        have hkj : k < j := hltj p k hl hdk
        have hkne : j ≠ k := Nat.ne_of_gt hkj
        have hcok : colAt st₁ k = colAt st₂ k := hco p k hpd hl
        have hjlen₁ : j < st₁.cols.length ∨ st₁.cols.length ≤ j := Nat.lt_or_ge _ _
        -- columns after the parallel addition steps agree at j
        have hcj' : colAt (addStep st₁ j k) j = colAt (addStep st₂ j k) j := by
          rcases Nat.lt_or_ge j st₁.cols.length with h₁ | h₁
          · rcases Nat.lt_or_ge j st₂.cols.length with h₂ | h₂
            · rw [colAt_addStep_self k h₁, colAt_addStep_self k h₂, hcj, hcok]
            · have : colAt st₂ j = ∅ := by
                rw [colAt, List.getD_eq_default _ _ (by simpa using h₂)]
              rw [← hcj] at this
              exact absurd (this ▸ hpmem) (Finset.not_mem_empty p)
          · have : colAt st₁ j = ∅ := by
              rw [colAt, List.getD_eq_default _ _ (by simpa using h₁)]
            exact absurd (this ▸ hpmem) (Finset.not_mem_empty p)
        have I' : StInv M P₁ (addStep st₁ j k) := by
          have hjlen : j < st₁.cols.length := by
            rcases Nat.lt_or_ge j st₁.cols.length with h₁ | h₁
            · exact h₁
            · have : colAt st₁ j = ∅ := by
                rw [colAt, List.getD_eq_default _ _ (by simpa using h₁)]
              exact absurd (this ▸ hpmem) (Finset.not_mem_empty p)
          have hcolj' : colAt (addStep st₁ j k) j = symmDiff (colAt st₁ j) (colAt st₁ k) :=
            colAt_addStep_self k hjlen
          refine ⟨by rw [cols_length_addStep]; exact I₁.lcols, I₁.llut, ?_, I₁.own_mem, ?_, ?_⟩
          · intro m r hr
            rcases eq_or_ne j m with hjm | hjm
            · subst hjm
              rw [hcolj'] at hr
              rw [Finset.mem_symmDiff] at hr
              rcases hr with ⟨h₁, _⟩ | ⟨h₁, _⟩
              · exact I₁.closure j r h₁
              · obtain ⟨hrk, hrd⟩ := I₁.closure k r h₁
                exact ⟨lt_trans hrk hkj, by omega⟩
            · rw [colAt_addStep_ne k hjm] at hr
              exact I₁.closure m r hr
          · intro q k' h
            have hk'P := I₁.own_mem q k' h
            have hk'j : j ≠ k' := fun he => hjP (he ▸ hk'P)
            rw [colAt_addStep_ne k hk'j]
            exact I₁.own_max q k' h
          · intro k' p' hk' hp'
            have hk'j : j ≠ k' := fun he => hjP (he ▸ hk')
            rw [colAt_addStep_ne k hk'j] at hp'
            exact I₁.complete k' p' hk' hp'
        have hlb' : ∀ q, M.getDimension q + 1 = M.getDimension j →
            lutAt (addStep st₁ j k) q = lutAt (addStep st₂ j k) q := by
          intro q hq
          rw [lutAt_addStep, lutAt_addStep]
          exact hlb q hq
        have hco' : ∀ q k', M.getDimension q + 1 = M.getDimension j →
            lutAt (addStep st₁ j k) q = some k' →
            colAt (addStep st₁ j k) k' = colAt (addStep st₂ j k) k' := by
          intro q k' hq h
          rw [lutAt_addStep] at h
          have hk'P := I₁.own_mem q k' h
          have hk'j : j ≠ k' := fun he => hjP (he ▸ hk'P)
          rw [colAt_addStep_ne k hk'j, colAt_addStep_ne k hk'j]
          exact hco q k' hq h
        have hltj' : ∀ q k', lutAt (addStep st₁ j k) q = some k' →
            M.getDimension k' = M.getDimension j → k' < j := by
          intro q k' h hd
          rw [lutAt_addStep] at h
          exact hltj q k' h hd
        obtain ⟨hcjout, hrest⟩ := ih (addStep st₁ j k) (addStep st₂ j k) j I' hjP hltj'
          hcj' hlb' hco'
        refine ⟨hcjout, ?_⟩
        rcases hrest with ⟨h₁, h₂, h₃, h₄, h₅, h₆⟩ | ⟨p', h₀, h₀', h₁, h₂, h₃, h₄, h₅, h₆, h₇, h₈, h₉, h₁₀⟩
        · refine Or.inl ⟨h₁, h₂, h₃, h₄, fun m hm => ?_, fun m hm => ?_⟩
          · rw [h₅ m hm, colAt_addStep_ne k (fun he => hm he.symm)]
          · rw [h₆ m hm, colAt_addStep_ne k (fun he => hm he.symm)]
        · refine Or.inr ⟨p', h₀, h₀', h₁, h₂, h₃, h₄, h₅, h₆,
            fun m hmj hmp => ?_, fun m hmj hmp => ?_, h₉, h₁₀⟩
          · rw [h₇ m hmj hmp, colAt_addStep_ne k (fun he => hmj he.symm)]
          · rw [h₈ m hmj hmp, colAt_addStep_ne k (fun he => hmj he.symm)]

/-!
## Dimension bands and processing orders
-/

theorem le_foldr_max : ∀ (l : List ℕ), ∀ x ∈ l, x ≤ l.foldr max 0 := by
  intro l
  induction l with
  | nil => intro x hx; exact absurd hx (List.not_mem_nil x)
  | cons a t ih =>
    intro x hx
    rcases List.mem_cons.1 hx with rfl | hx
    · exact le_max_left _ _
    · exact le_trans (ih x hx) (le_max_right _ _)

theorem getDimension_le_maxDimension (M : BoundaryMatrix) {j : ℕ}
    (hj : j < M.getNumColumns) : M.getDimension j ≤ maxDimension M := by
  apply le_foldr_max
  exact List.mem_map_of_mem _ (List.mem_range.2 hj)

theorem mem_bandList {M : BoundaryMatrix} {d j : ℕ} :
    j ∈ bandList M d ↔ j < M.getNumColumns ∧ M.getDimension j = d := by
  simp [bandList, List.mem_filter]

theorem bandList_pairwise (M : BoundaryMatrix) (d : ℕ) :
    (bandList M d).Pairwise (· < ·) :=
  (List.pairwise_lt_range _).filter _

theorem bandList_getElem_lt {M : BoundaryMatrix} {d i n : ℕ}
    (hn : n < (bandList M d).length) (hi : i < n) :
    (bandList M d)[i] < (bandList M d)[n] := by
  exact List.pairwise_iff_getElem.1 (bandList_pairwise M d) i n (by omega) hn hi

/-- Number of already-processed columns of band `d` in the order
`ord`. -/
def cntBand (M : BoundaryMatrix) (ord : List ℕ) (d : ℕ) : ℕ :=
  (ord.filter (fun j => M.getDimension j = d)).length

/-- A processing order compatible with the band structure: its
restriction to every dimension band is an initial segment of that band
in increasing column order.  Both the standard order `0 .. N−1` and the
twist order satisfy this. -/
def IsBandOrder (M : BoundaryMatrix) (ord : List ℕ) : Prop :=
  ∀ d, ord.filter (fun j => M.getDimension j = d) = (bandList M d).take (cntBand M ord d)

theorem isBandOrder_nil (M : BoundaryMatrix) : IsBandOrder M [] := by
  intro d
  rfl

theorem mem_band_of_bandOrder {M : BoundaryMatrix} {ord : List ℕ}
    (hbo : IsBandOrder M ord) {j : ℕ} (hj : j ∈ ord) :
    j ∈ bandList M (M.getDimension j) := by
  have hmem : j ∈ ord.filter (fun k => M.getDimension k = M.getDimension j) :=
    List.mem_filter.2 ⟨hj, by simp⟩
  rw [hbo (M.getDimension j)] at hmem
  exact List.mem_of_mem_take hmem

theorem lt_numColumns_of_bandOrder {M : BoundaryMatrix} {ord : List ℕ}
    (hbo : IsBandOrder M ord) {j : ℕ} (hj : j ∈ ord) : j < M.getNumColumns :=
  (mem_bandList.1 (mem_band_of_bandOrder hbo hj)).1

/-- Structure of a band order extended by one more column. -/
theorem bandOrder_concat {M : BoundaryMatrix} {ord : List ℕ} {j : ℕ}
    (hbo : IsBandOrder M (ord ++ [j])) :
    IsBandOrder M ord
    ∧ (∀ d, d ≠ M.getDimension j → cntBand M (ord ++ [j]) d = cntBand M ord d)
    ∧ cntBand M (ord ++ [j]) (M.getDimension j) = cntBand M ord (M.getDimension j) + 1
    ∧ (∃ hn : cntBand M ord (M.getDimension j) < (bandList M (M.getDimension j)).length,
        (bandList M (M.getDimension j))[cntBand M ord (M.getDimension j)] = j) := by
  have hfilter : ∀ d, (ord ++ [j]).filter (fun k => M.getDimension k = d)
      = ord.filter (fun k => M.getDimension k = d)
        ++ (if M.getDimension j = d then [j] else []) := by
    intro d
    rw [List.filter_append]
    congr 1
    by_cases h : M.getDimension j = d
    · simp [h]
    · simp [h]
  have hcnt_ne : ∀ d, d ≠ M.getDimension j → cntBand M (ord ++ [j]) d = cntBand M ord d := by
    intro d hd
    rw [cntBand, hfilter d, if_neg (fun he => hd he.symm)]
    simp [cntBand]
  have hcnt_eq : cntBand M (ord ++ [j]) (M.getDimension j)
      = cntBand M ord (M.getDimension j) + 1 := by
    rw [cntBand, hfilter _, if_pos rfl]
    simp [cntBand]
  have hkey := hbo (M.getDimension j)
  rw [hfilter _, if_pos rfl, hcnt_eq] at hkey
  have hlen : cntBand M ord (M.getDimension j) + 1
      ≤ (bandList M (M.getDimension j)).length := by
    have hc := congrArg List.length hkey
    rw [List.length_append, List.length_take, List.length_singleton] at hc
    have hfl : (ord.filter (fun k => M.getDimension k = M.getDimension j)).length
        = cntBand M ord (M.getDimension j) := rfl
    rw [hfl] at hc
    omega
  have hnlt : cntBand M ord (M.getDimension j) < (bandList M (M.getDimension j)).length := by
    omega
  have htake : (bandList M (M.getDimension j)).take (cntBand M ord (M.getDimension j) + 1)
      = (bandList M (M.getDimension j)).take (cntBand M ord (M.getDimension j))
        ++ [(bandList M (M.getDimension j))[cntBand M ord (M.getDimension j)]] := by
    rw [List.take_succ]
    congr 1
    rw [List.getElem?_eq_getElem hnlt]
    rfl
  rw [htake] at hkey
  have hlen₁ : (ord.filter (fun k => M.getDimension k = M.getDimension j)).length
      = ((bandList M (M.getDimension j)).take (cntBand M ord (M.getDimension j))).length := by
    rw [List.length_take]
    have hfl : (ord.filter (fun k => M.getDimension k = M.getDimension j)).length
        = cntBand M ord (M.getDimension j) := rfl
    rw [hfl]
    omega
  obtain ⟨h₁, h₂⟩ := List.append_inj hkey hlen₁
  have hj_eq : (bandList M (M.getDimension j))[cntBand M ord (M.getDimension j)] = j := by
    injection h₂ with hhead htail
    exact hhead.symm
  refine ⟨?_, hcnt_ne, hcnt_eq, ⟨hnlt, hj_eq⟩⟩
  intro d
  by_cases hd : d = M.getDimension j
  · subst hd
    exact h₁
  · have hthis := hbo d
    rw [hfilter d, if_neg (fun he => hd he.symm)] at hthis
    simp only [List.append_nil] at hthis
    rw [hthis, hcnt_ne d hd]

/-- The column appended to a band order was not processed before. -/
theorem bandOrder_concat_not_mem {M : BoundaryMatrix} {ord : List ℕ} {j : ℕ}
    (hbo : IsBandOrder M (ord ++ [j])) : j ∉ ord := by
  intro hj
  obtain ⟨hbo', _, _, hn, hj_eq⟩ := bandOrder_concat hbo
  have hmem : j ∈ ord.filter (fun k => M.getDimension k = M.getDimension j) :=
    List.mem_filter.2 ⟨hj, by simp⟩
  rw [hbo' (M.getDimension j)] at hmem
  obtain ⟨i, hi, hie⟩ := List.mem_iff_getElem.1 hmem
  have hile : i < cntBand M ord (M.getDimension j) := by
    rw [List.length_take] at hi
    exact lt_of_lt_of_le hi (min_le_left _ _)
  have hib : i < (bandList M (M.getDimension j)).length := by omega
  have hgl : ((bandList M (M.getDimension j)).take
      (cntBand M ord (M.getDimension j)))[i]
      = (bandList M (M.getDimension j))[i] := List.getElem_take _
  rw [hgl] at hie
  have := bandList_getElem_lt hn hile
  rw [hj_eq, hie] at this
  exact lt_irrefl j this

/-- All same-band columns below the next one are already processed in a
band order. -/
theorem bandOrder_concat_processed {M : BoundaryMatrix} {ord : List ℕ} {j : ℕ}
    (hbo : IsBandOrder M (ord ++ [j])) :
    ∀ r, r < j → r < M.getNumColumns → M.getDimension r = M.getDimension j → r ∈ ord := by
  intro r hrj hrN hrd
  obtain ⟨hbo', _, _, hn, hj_eq⟩ := bandOrder_concat hbo
  have hrband : r ∈ bandList M (M.getDimension j) := mem_bandList.2 ⟨hrN, hrd⟩
  obtain ⟨i, hi, hie⟩ := List.mem_iff_getElem.1 hrband
  have hilt : i < cntBand M ord (M.getDimension j) := by
    by_contra hge
    have hge' : cntBand M ord (M.getDimension j) ≤ i := Nat.le_of_not_lt hge
    rcases Nat.eq_or_lt_of_le hge' with hEq | hlt
    · subst hEq
      rw [hj_eq] at hie
      omega
    · have := List.pairwise_iff_getElem.1 (bandList_pairwise M (M.getDimension j))
        (cntBand M ord (M.getDimension j)) i hn hi hlt
      rw [hj_eq, hie] at this
      omega
  have hrmem : r ∈ (bandList M (M.getDimension j)).take (cntBand M ord (M.getDimension j)) := by
    rw [List.mem_iff_getElem]
    refine ⟨i, by rw [List.length_take]; exact lt_min hilt hi, ?_⟩
    rw [List.getElem_take]
    exact hie
  rw [← hbo' (M.getDimension j)] at hrmem
  exact (List.mem_filter.1 hrmem).1

/-- The standard order `0 .. N−1` is a band order that exhausts every
band. -/
theorem isBandOrder_range (M : BoundaryMatrix) :
    IsBandOrder M (List.range M.getNumColumns)
    ∧ ∀ d, cntBand M (List.range M.getNumColumns) d = (bandList M d).length := by
  have hfd : ∀ d, (List.range M.getNumColumns).filter (fun j => M.getDimension j = d)
      = bandList M d := fun d => rfl
  have hcnt : ∀ d, cntBand M (List.range M.getNumColumns) d = (bandList M d).length := by
    intro d
    rw [cntBand, hfd d]
  refine ⟨?_, hcnt⟩
  intro d
  rw [hfd d, hcnt d, List.take_length]

/-- An initial segment of a band is itself a band order. -/
theorem isBandOrder_take_band (M : BoundaryMatrix) (d n : ℕ) :
    IsBandOrder M ((bandList M d).take n)
    ∧ cntBand M ((bandList M d).take n) d = min n (bandList M d).length
    ∧ ∀ d', d' ≠ d → cntBand M ((bandList M d).take n) d' = 0 := by
  have hall : ∀ j ∈ (bandList M d).take n, M.getDimension j = d := by
    intro j hj
    exact (mem_bandList.1 (List.mem_of_mem_take hj)).2
  have hself : ((bandList M d).take n).filter (fun j => M.getDimension j = d)
      = (bandList M d).take n := by
    rw [List.filter_eq_self]
    intro a ha
    simp [hall a ha]
  have hnil : ∀ d', d' ≠ d →
      ((bandList M d).take n).filter (fun j => M.getDimension j = d') = [] := by
    intro d' hd'
    rw [List.filter_eq_nil_iff]
    intro a ha
    simp only [hall a ha, decide_eq_true_eq]
    omega
  have hcnt_d : cntBand M ((bandList M d).take n) d = min n (bandList M d).length := by
    rw [cntBand, hself, List.length_take]
  have hcnt_ne : ∀ d', d' ≠ d → cntBand M ((bandList M d).take n) d' = 0 := by
    intro d' hd'
    rw [cntBand, hnil d' hd']
    rfl
  refine ⟨?_, hcnt_d, hcnt_ne⟩
  intro d'
  by_cases hd' : d' = d
  · subst hd'
    rw [hself, hcnt_d]
    rcases Nat.le_total n (bandList M d').length with h | h
    · rw [min_eq_left h]
    · rw [min_eq_right h, List.take_length, List.take_of_length_le h]
  · rw [hnil d' hd', hcnt_ne d' hd']
    rfl

/-- Restricting a concatenation of bands to one dimension picks that
band (when the listed dimensions are distinct). -/
theorem filter_flatMap_bands (M : BoundaryMatrix) (d : ℕ) :
    ∀ (ds : List ℕ), ds.Nodup →
    (ds.flatMap (bandList M)).filter (fun j => M.getDimension j = d)
      = if d ∈ ds then bandList M d else [] := by
  intro ds
  induction ds with
  | nil => intro _; simp
  | cons d' rest ih =>
    intro hnd
    rw [List.flatMap_cons, List.filter_append, ih (List.Nodup.of_cons hnd)]
    by_cases hdd : d' = d
    · subst hdd
      have hnot : d' ∉ rest := (List.nodup_cons.1 hnd).1
      rw [if_neg hnot, if_pos (List.mem_cons_self d' rest)]
      rw [List.filter_eq_self.2 ?_, List.append_nil]
      intro a ha
      simp [(mem_bandList.1 ha).2]
    · have hfilter_nil : (bandList M d').filter (fun j => M.getDimension j = d) = [] := by
        rw [List.filter_eq_nil_iff]
        intro a ha
        simp only [decide_eq_true_eq, (mem_bandList.1 ha).2]
        omega
      rw [hfilter_nil, List.nil_append]
      by_cases hd : d ∈ rest
      · rw [if_pos hd, if_pos (List.mem_cons_of_mem d' hd)]
      · rw [if_neg hd, if_neg ?_]
        intro hc
        rcases List.mem_cons.1 hc with he | he
        · exact hdd he.symm
        · exact hd he

/-- Every band beyond the maximum dimension is empty. -/
theorem bandList_eq_nil_of_gt {M : BoundaryMatrix} {d : ℕ}
    (hd : maxDimension M < d) : bandList M d = [] := by
  rw [List.eq_nil_iff_forall_not_mem]
  intro j hj
  obtain ⟨hjN, hjd⟩ := mem_bandList.1 hj
  have := getDimension_le_maxDimension M hjN
  omega

/-- The twist order restricted to any dimension is exactly that band. -/
theorem filter_twistOrder (M : BoundaryMatrix) (d : ℕ) :
    (twistOrder M).filter (fun j => M.getDimension j = d) = bandList M d := by
  rw [twistOrder, filter_flatMap_bands M d _ (List.nodup_reverse.2 (List.nodup_range _))]
  by_cases hd : d ∈ (List.range (maxDimension M + 1)).reverse
  · rw [if_pos hd]
  · rw [if_neg hd]
    rw [List.mem_reverse, List.mem_range] at hd
    exact (bandList_eq_nil_of_gt (by omega)).symm

/-- The twist order is a band order that exhausts every band. -/
theorem isBandOrder_twistOrder (M : BoundaryMatrix) :
    IsBandOrder M (twistOrder M)
    ∧ ∀ d, cntBand M (twistOrder M) d = (bandList M d).length := by
  have hcnt : ∀ d, cntBand M (twistOrder M) d = (bandList M d).length := by
    intro d
    rw [cntBand, filter_twistOrder]
  refine ⟨?_, hcnt⟩
  intro d
  rw [filter_twistOrder, hcnt d, List.take_length]

/-- Along a band order, every pairwise-dimension comparison of the twist
order holds: dimensions never increase. -/
def DimDescending (M : BoundaryMatrix) (ord : List ℕ) : Prop :=
  ord.Pairwise (fun a b => M.getDimension b ≤ M.getDimension a)

theorem dimDescending_concat {M : BoundaryMatrix} {ord : List ℕ} {j : ℕ}
    (h : DimDescending M (ord ++ [j])) :
    DimDescending M ord ∧ ∀ k ∈ ord, M.getDimension j ≤ M.getDimension k := by
  rw [DimDescending, List.pairwise_append] at h
  exact ⟨h.1, fun k hk => h.2.2 k hk j (List.mem_singleton_self j)⟩

theorem twistOrder_dimDescending (M : BoundaryMatrix) :
    DimDescending M (twistOrder M) := by
  rw [twistOrder, DimDescending]
  have hgen : ∀ (ds : List ℕ), ds.Pairwise (fun a b => b < a) →
      (ds.flatMap (bandList M)).Pairwise
        (fun a b => M.getDimension b ≤ M.getDimension a) := by
    intro ds
    induction ds with
    | nil => intro _; simp
    | cons d' rest ih =>
      intro hp
      rw [List.flatMap_cons, List.pairwise_append]
      obtain ⟨hhead, htail⟩ := List.pairwise_cons.1 hp
      refine ⟨?_, ih htail, ?_⟩
      · refine ((bandList_pairwise M d').imp_of_mem ?_)
        intro a b ha hb _
        rw [(mem_bandList.1 ha).2, (mem_bandList.1 hb).2]
      · intro a ha b hb
        obtain ⟨d'', hd''⟩ := List.mem_flatMap.1 hb
        rw [(mem_bandList.1 ha).2, (mem_bandList.1 hd''.2).2]
        exact le_of_lt (hhead d'' hd''.1)
  apply hgen
  rw [List.pairwise_reverse]
  exact List.pairwise_lt_range _

/-- Processed same-band columns precede the next column of the band. -/
theorem bandOrder_concat_lt {M : BoundaryMatrix} {ord : List ℕ} {j : ℕ}
    (hbo : IsBandOrder M (ord ++ [j])) :
    ∀ k ∈ ord, M.getDimension k = M.getDimension j → k < j := by
  intro k hk hkd
  obtain ⟨hbo', _, _, hn, hj_eq⟩ := bandOrder_concat hbo
  have hmem : k ∈ ord.filter (fun m => M.getDimension m = M.getDimension j) :=
    List.mem_filter.2 ⟨hk, by simp [hkd]⟩
  rw [hbo' (M.getDimension j)] at hmem
  obtain ⟨i, hi, hie⟩ := List.mem_iff_getElem.1 hmem
  have hile : i < cntBand M ord (M.getDimension j) := by
    rw [List.length_take] at hi
    exact lt_of_lt_of_le hi (min_le_left _ _)
  have hib : i < (bandList M (M.getDimension j)).length := by omega
  have hgl : ((bandList M (M.getDimension j)).take
      (cntBand M ord (M.getDimension j)))[i]
      = (bandList M (M.getDimension j))[i] := List.getElem_take _
  rw [hgl] at hie
  have := bandList_getElem_lt hn hile
  rw [hj_eq, hie] at this
  exact this

/-- States of the clearing-free run over a processing order. -/
def runOf (M : BoundaryMatrix) (ord : List ℕ) : RState :=
  runReduction false (M.getNumColumns + 1) ord (initState M)

/-- States of the clearing run over a processing order. -/
def runOfC (M : BoundaryMatrix) (ord : List ℕ) : RState :=
  runReduction true (M.getNumColumns + 1) ord (initState M)

/-- The reference run of one band: clearing-free processing of the first
`n` columns of band `d` alone, from the initial state. -/
def bandRun (M : BoundaryMatrix) (d n : ℕ) : RState :=
  runOf M ((bandList M d).take n)

theorem runOf_concat (M : BoundaryMatrix) (ord : List ℕ) (j : ℕ) :
    runOf M (ord ++ [j])
      = reduceLoop false (M.getNumColumns + 1) (runOf M ord) j := by
  rw [runOf, runOf, runReduction, runReduction, List.foldl_append]
  rfl

theorem runOfC_concat (M : BoundaryMatrix) (ord : List ℕ) (j : ℕ) :
    runOfC M (ord ++ [j])
      = reduceLoop true (M.getNumColumns + 1) (runOfC M ord) j := by
  rw [runOfC, runOfC, runReduction, runReduction, List.foldl_append]
  rfl

theorem StInv.congrP {M : BoundaryMatrix} {P P' : ℕ → Prop} {st : RState}
    (h : StInv M P st) (hiff : ∀ k, P k ↔ P' k) : StInv M P' st :=
  ⟨h.lcols, h.llut, h.closure,
   fun q k hq => (hiff k).1 (h.own_mem q k hq), h.own_max,
   fun k p hk hp => h.complete k p ((hiff k).2 hk) hp⟩

theorem RepInv.congrQ {M : BoundaryMatrix} {P P' : ℕ → Prop} {st : RState}
    (h : RepInv M P st) (hiff : ∀ k, P k ↔ P' k) : RepInv M P' st :=
  h.mono (fun k hk => (hiff k).1 hk)

theorem stInv_initState (M : BoundaryMatrix) (hM : ValidBoundaryMatrix M) :
    StInv M (fun _ => False) (initState M) := by
  obtain ⟨htri, hdim, _⟩ := hM
  refine ⟨rfl, by simp [initState], ?_, ?_, ?_, ?_⟩
  · intro j r hr
    rw [colAt_initState] at hr
    rcases Nat.lt_or_ge j M.getNumColumns with hj | hj
    · exact ⟨htri j hj r hr, hdim j hj r hr⟩
    · rw [BoundaryMatrix.col, List.getD_eq_default] at hr
      · exact absurd hr (Finset.not_mem_empty r)
      · simpa [BoundaryMatrix.getNumColumns] using hj
  · intro q k h
    rw [lutAt_initState] at h
    exact Option.noConfusion h
  · intro q k h
    rw [lutAt_initState] at h
    exact Option.noConfusion h
  · intro k p hk
    exact absurd hk not_false

theorem repInv_initState (M : BoundaryMatrix) :
    RepInv M (fun _ => False) (initState M) := by
  intro k
  refine ⟨{k}, ?_, Finset.mem_singleton_self k, ?_⟩
  · rw [colAt_initState, gsum_singleton]
  · intro i hi
    rw [Finset.mem_singleton] at hi
    subst hi
    exact ⟨rfl, le_refl i, fun h => absurd rfl h⟩

/-- The next element of a band is not among the already-taken ones. -/
theorem getElem_band_not_mem_take {M : BoundaryMatrix} {d n : ℕ}
    (hn : n < (bandList M d).length) :
    (bandList M d)[n] ∉ (bandList M d).take n := by
  intro hmem
  obtain ⟨i, hi, hie⟩ := List.mem_iff_getElem.1 hmem
  have hilt : i < n := by
    rw [List.length_take] at hi
    exact lt_of_lt_of_le hi (min_le_left _ _)
  have hib : i < (bandList M d).length := by omega
  have hgl : ((bandList M d).take n)[i]
      = (bandList M d)[i] := List.getElem_take _
  rw [hgl] at hie
  have := bandList_getElem_lt hn hilt
  rw [hie] at this
  exact lt_irrefl _ this

/-- Elements already taken from a band precede its next element. -/
theorem mem_take_band_lt {M : BoundaryMatrix} {d n k : ℕ}
    (hn : n < (bandList M d).length) (hk : k ∈ (bandList M d).take n) :
    k < (bandList M d)[n] := by
  obtain ⟨i, hi, hie⟩ := List.mem_iff_getElem.1 hk
  have hilt : i < n := by
    rw [List.length_take] at hi
    exact lt_of_lt_of_le hi (min_le_left _ _)
  have hib : i < (bandList M d).length := by omega
  have hgl : ((bandList M d).take n)[i]
      = (bandList M d)[i] := List.getElem_take _
  rw [hgl] at hie
  have := bandList_getElem_lt hn hilt
  rw [hie] at this
  exact this

/-- Updating one entry of a bounded union by inserting an element. -/
theorem biUnion_update_insert {S : Finset ℕ} {f g : ℕ → Finset (ℕ × ℕ)} {d₀ : ℕ}
    (hd₀ : d₀ ∈ S) (x : ℕ × ℕ)
    (hfg : ∀ d ∈ S, d ≠ d₀ → g d = f d) (hg : g d₀ = insert x (f d₀)) :
    S.biUnion g = insert x (S.biUnion f) := by
  ext y
  rw [Finset.mem_biUnion, Finset.mem_insert, Finset.mem_biUnion]
  constructor
  · rintro ⟨d, hd, hy⟩
    by_cases hdd : d = d₀
    · subst hdd
      rw [hg, Finset.mem_insert] at hy
      rcases hy with rfl | hy
      · exact Or.inl rfl
      · exact Or.inr ⟨d, hd, hy⟩
    · rw [hfg d hd hdd] at hy
      exact Or.inr ⟨d, hd, hy⟩
  · rintro (rfl | ⟨d, hd, hy⟩)
    · exact ⟨d₀, hd₀, by rw [hg]; exact Finset.mem_insert_self y _⟩
    · by_cases hdd : d = d₀
      · subst hdd
        exact ⟨d, hd, by rw [hg]; exact Finset.mem_insert_of_mem hy⟩
      · exact ⟨d, hd, by rw [hfg d hd hdd]; exact hy⟩

set_option maxHeartbeats 2000000 in
/-- Band decomposition of clearing-free reduction: a run over any band
order looks, band by band, exactly like the runs of the single bands in
isolation — columns, ownership slots, and pairs decompose over the
dimension bands.  In particular the emitted pairs depend only on how
many columns of each band have been processed, not on the
interleaving. -/
theorem run_desc (M : BoundaryMatrix) (hM : ValidBoundaryMatrix M) :
    ∀ (ord : List ℕ), IsBandOrder M ord →
    StInv M (fun k => k ∈ ord) (runOf M ord)
    ∧ RepInv M (fun k => k ∈ ord) (runOf M ord)
    ∧ (∀ k, k ∉ ord → colAt (runOf M ord) k = M.col k)
    ∧ (∀ k, colAt (runOf M ord) k
        = colAt (bandRun M (M.getDimension k) (cntBand M ord (M.getDimension k))) k)
    ∧ (∀ q, lutAt (runOf M ord) q
        = lutAt (bandRun M (M.getDimension q + 1) (cntBand M ord (M.getDimension q + 1))) q)
    ∧ (runOf M ord).pairs
        = (Finset.range (maxDimension M + 1)).biUnion
            (fun d => (bandRun M d (cntBand M ord d)).pairs) := by
  have hbase : StInv M (fun k => k ∈ ([] : List ℕ)) (runOf M [])
      ∧ RepInv M (fun k => k ∈ ([] : List ℕ)) (runOf M [])
      ∧ (∀ k, k ∉ ([] : List ℕ) → colAt (runOf M []) k = M.col k)
      ∧ (∀ k, colAt (runOf M []) k
          = colAt (bandRun M (M.getDimension k) (cntBand M [] (M.getDimension k))) k)
      ∧ (∀ q, lutAt (runOf M []) q
          = lutAt (bandRun M (M.getDimension q + 1) (cntBand M [] (M.getDimension q + 1))) q)
      ∧ (runOf M []).pairs
          = (Finset.range (maxDimension M + 1)).biUnion
              (fun d => (bandRun M d (cntBand M [] d)).pairs) := by
    refine ⟨(stInv_initState M hM).congrP (by simp),
      (repInv_initState M).congrQ (by simp),
      fun k _ => rfl, fun k => rfl, fun q => rfl, ?_⟩
    have h0 : (runOf M []).pairs = ∅ := rfl
    have hb : ∀ d, (bandRun M d (cntBand M [] d)).pairs = ∅ := fun d => rfl
    rw [h0]
    ext x
    simp [hb]
  suffices H : ∀ (L : ℕ) (ord : List ℕ), ord.length ≤ L → IsBandOrder M ord →
      StInv M (fun k => k ∈ ord) (runOf M ord)
      ∧ RepInv M (fun k => k ∈ ord) (runOf M ord)
      ∧ (∀ k, k ∉ ord → colAt (runOf M ord) k = M.col k)
      ∧ (∀ k, colAt (runOf M ord) k
          = colAt (bandRun M (M.getDimension k) (cntBand M ord (M.getDimension k))) k)
      ∧ (∀ q, lutAt (runOf M ord) q
          = lutAt (bandRun M (M.getDimension q + 1) (cntBand M ord (M.getDimension q + 1))) q)
      ∧ (runOf M ord).pairs
          = (Finset.range (maxDimension M + 1)).biUnion
              (fun d => (bandRun M d (cntBand M ord d)).pairs) by
    intro ord hbo
    exact H ord.length ord le_rfl hbo
  intro L
  induction L with
  | zero =>
    intro ord hlen hbo
    have hnil : ord = [] := List.eq_nil_of_length_eq_zero (Nat.le_zero.1 hlen)
    subst hnil
    exact hbase
  | succ L ih =>
    intro ord hlen hbo
    rcases List.eq_nil_or_concat ord with rfl | ⟨ys, j, he⟩
    · exact hbase
    · rw [List.concat_eq_append] at he
      subst he
      -- notations
      obtain ⟨hboys, hcnt_ne, hcnt_eq, hnlt, hj_eq⟩ := bandOrder_concat hbo
      have hjys : j ∉ ys := bandOrder_concat_not_mem hbo
      have hjord : j ∈ ys ++ [j] := List.mem_append_right ys (List.mem_singleton_self j)
      have hjN : j < M.getNumColumns := lt_numColumns_of_bandOrder hbo hjord
      have hlys : ys.length ≤ L := by
        rw [List.length_append, List.length_singleton] at hlen
        omega
      obtain ⟨Iys, Rys, Uys, Ays, Bys, Cys⟩ := ih ys hlys hboys
      -- the band run of the band of j
      have hntb : ((bandList M (M.getDimension j)).take
          (cntBand M ys (M.getDimension j))).length ≤ L := by
        rw [List.length_take]
        have h₁ : cntBand M ys (M.getDimension j) ≤ ys.length := List.length_filter_le _ _
        omega
      obtain ⟨Itb0, _, _, _, _, _⟩ := ih _ hntb (isBandOrder_take_band M (M.getDimension j)
        (cntBand M ys (M.getDimension j))).1
      have Itb : StInv M
          (fun k => k ∈ (bandList M (M.getDimension j)).take (cntBand M ys (M.getDimension j)))
          (bandRun M (M.getDimension j) (cntBand M ys (M.getDimension j))) := Itb0
      have hjtb : j ∉ (bandList M (M.getDimension j)).take (cntBand M ys (M.getDimension j)) := by
        intro hmem
        have h := mem_take_band_lt hnlt hmem
        rw [hj_eq] at h
        exact lt_irrefl j h
      -- next step of the band run
      have htake : (bandList M (M.getDimension j)).take (cntBand M ys (M.getDimension j) + 1)
          = (bandList M (M.getDimension j)).take (cntBand M ys (M.getDimension j)) ++ [j] := by
        rw [List.take_succ, List.getElem?_eq_getElem hnlt]
        simp [hj_eq]
      have hbstep : bandRun M (M.getDimension j) (cntBand M ys (M.getDimension j) + 1)
          = reduceLoop false (M.getNumColumns + 1)
              (bandRun M (M.getDimension j) (cntBand M ys (M.getDimension j))) j := by
        rw [bandRun, htake, runOf_concat]
        rfl
      have hstep : runOf M (ys ++ [j])
          = reduceLoop false (M.getNumColumns + 1) (runOf M ys) j := runOf_concat M ys j
      -- hypotheses for the lockstep and master lemmas
      have hltj : ∀ q k, lutAt (runOf M ys) q = some k →
          M.getDimension k = M.getDimension j → k < j := by
        intro q k h hd
        exact bandOrder_concat_lt hbo k (Iys.own_mem q k h) hd
      have hfuel : ∀ p, pivotOf (runOf M ys) j = some p → p < M.getNumColumns + 1 := by
        intro p hp
        have := (Iys.closure j p (pivot_mem hp)).1
        omega
      have hltj₂ : ∀ q k,
          lutAt (bandRun M (M.getDimension j) (cntBand M ys (M.getDimension j))) q = some k →
          M.getDimension k = M.getDimension j → k < j := by
        intro q k h _
        have hk := Itb.own_mem q k h
        rw [← hj_eq]
        exact mem_take_band_lt hnlt hk
      have hfuel₂ : ∀ p,
          pivotOf (bandRun M (M.getDimension j) (cntBand M ys (M.getDimension j))) j = some p →
          p < M.getNumColumns + 1 := by
        intro p hp
        have := (Itb.closure j p (pivot_mem hp)).1
        omega
      have hnc : (false = true) → ∀ c, M.getDimension c + 1 = M.getDimension j →
          ¬ (fun k => k ∈ ys) c := fun h => absurd h Bool.false_ne_true
      have hnc₂ : (false = true) → ∀ c, M.getDimension c + 1 = M.getDimension j →
          ¬ (fun k => k ∈ (bandList M (M.getDimension j)).take
            (cntBand M ys (M.getDimension j))) c := fun h => absurd h Bool.false_ne_true
      -- lockstep of the two runs on column j
      have hcj : colAt (runOf M ys) j
          = colAt (bandRun M (M.getDimension j) (cntBand M ys (M.getDimension j))) j := Ays j
      have hlb : ∀ q, M.getDimension q + 1 = M.getDimension j →
          lutAt (runOf M ys) q
            = lutAt (bandRun M (M.getDimension j) (cntBand M ys (M.getDimension j))) q := by
        intro q hq
        have := Bys q
        rw [hq] at this
        exact this
      have hco : ∀ q k, M.getDimension q + 1 = M.getDimension j →
          lutAt (runOf M ys) q = some k →
          colAt (runOf M ys) k
            = colAt (bandRun M (M.getDimension j) (cntBand M ys (M.getDimension j))) k := by
        intro q k hq h
        have hmax := Iys.own_max q k h
        have hqk : M.getDimension q + 1 = M.getDimension k :=
          (Iys.closure k q (Finset.mem_of_max hmax)).2
        have hkd : M.getDimension k = M.getDimension j := by omega
        have := Ays k
        rw [hkd] at this
        exact this
      obtain ⟨hcjout, hLS⟩ := reduceLoop_lockstep M false false (fun k => k ∈ ys)
        (M.getNumColumns + 1) (runOf M ys)
        (bandRun M (M.getDimension j) (cntBand M ys (M.getDimension j))) j
        Iys hjys hltj hcj hlb hco
      -- master on both runs
      obtain ⟨Iout, hMC⟩ := reduceLoop_master M false (fun k => k ∈ ys)
        (M.getNumColumns + 1) (runOf M ys) j Iys hjys hjN hltj hfuel hnc
      obtain ⟨Iout₂, hMC₂⟩ := reduceLoop_master M false
        (fun k => k ∈ (bandList M (M.getDimension j)).take (cntBand M ys (M.getDimension j)))
        (M.getNumColumns + 1)
        (bandRun M (M.getDimension j) (cntBand M ys (M.getDimension j))) j
        Itb hjtb hjN hltj₂ hfuel₂ hnc₂
      have Rout := reduceLoop_rep M (fun k => k ∈ ys) (M.getNumColumns + 1)
        (runOf M ys) j Iys hjys hjN hltj Rys
      -- frames with the clearing hypothesis discharged
      have hframe : ∀ m, m ≠ j →
          colAt (reduceLoop false (M.getNumColumns + 1) (runOf M ys) j) m
            = colAt (runOf M ys) m := by
        intro m hm
        rcases hMC with ⟨_, _, _, h₄⟩ | ⟨p, _, _, _, _, _, _, _, h₈⟩
        · exact h₄ m hm
        · exact h₈ m hm (fun h => absurd h Bool.false_ne_true)
      have hframe₂ : ∀ m, m ≠ j →
          colAt (reduceLoop false (M.getNumColumns + 1)
            (bandRun M (M.getDimension j) (cntBand M ys (M.getDimension j))) j) m
            = colAt (bandRun M (M.getDimension j) (cntBand M ys (M.getDimension j))) m := by
        intro m hm
        rcases hMC₂ with ⟨_, _, _, h₄⟩ | ⟨p, _, _, _, _, _, _, _, h₈⟩
        · exact h₄ m hm
        · exact h₈ m hm (fun h => absurd h Bool.false_ne_true)
      have hmemiff : ∀ k, (k = j ∨ k ∈ ys) ↔ k ∈ ys ++ [j] := by
        intro k
        rw [List.mem_append, List.mem_singleton]
        exact Or.comm
      rw [hstep]
      refine ⟨Iout.congrP hmemiff, Rout.congrQ hmemiff, ?_, ?_, ?_, ?_⟩
      · -- untouched columns
        intro k hk
        have hkj : k ≠ j := fun he => hk (he ▸ hjord)
        have hkys : k ∉ ys := fun he => hk (List.mem_append_left _ he)
        rw [hframe k hkj]
        exact Uys k hkys
      · -- column description
        intro k
        by_cases hkd : M.getDimension k = M.getDimension j
        · by_cases hkj : k = j
          · subst hkj
            rw [hcjout, hcnt_eq, hbstep]
          · rw [hframe k hkj]
            have := Ays k
            rw [hkd] at this
            rw [this, ← hframe₂ k hkj, ← hbstep, hkd, hcnt_eq]
        · have hkj : k ≠ j := fun he => hkd (he ▸ rfl)
          rw [hframe k hkj]
          have := Ays k
          rw [this, hcnt_ne _ hkd]
      · -- ownership description
        intro q
        by_cases hqd : M.getDimension q + 1 = M.getDimension j
        · rw [hqd, hcnt_eq, hbstep]
          rcases hLS with ⟨l₁, l₂, _⟩ | ⟨p, hpd, hpj, hp₁, hp₂, l₁, l₂, _⟩
          · rw [lutAt, l₁, lutAt, l₂]
            have := hlb q hqd
            rw [lutAt, lutAt] at this
            exact this
          · rw [lutAt, l₁, lutAt, l₂]
            by_cases hqp : q = p
            · subst hqp
              rw [getD_set_self _ (by rw [Iys.llut]; omega),
                getD_set_self _ (by rw [Itb.llut]; omega)]
            · rw [getD_set_ne _ (fun he => hqp he.symm), getD_set_ne _ (fun he => hqp he.symm)]
              have := hlb q hqd
              rw [lutAt, lutAt] at this
              exact this
        · have hlutq : lutAt (reduceLoop false (M.getNumColumns + 1) (runOf M ys) j) q
              = lutAt (runOf M ys) q := by
            rcases hLS with ⟨l₁, _⟩ | ⟨p, hpd, hpj, hp₁, hp₂, l₁, _⟩
            · rw [lutAt, l₁]
              rfl
            · rw [lutAt, l₁]
              have hqp : q ≠ p := fun he => hqd (he ▸ hpd)
              exact getD_set_ne _ (fun he => hqp he.symm)
          rw [hlutq, Bys q, hcnt_ne _ (fun he => hqd (by omega))]
      · -- pairs description
        have hd₀mem : M.getDimension j ∈ Finset.range (maxDimension M + 1) :=
          Finset.mem_range.2 (by
            have := getDimension_le_maxDimension M hjN
            omega)
        rcases hLS with ⟨_, l₂, l₃, l₄, _⟩ | ⟨p, hpd, hpj, hp₁, hp₂, _, l₂, l₃, l₄, _⟩
        · rw [l₃, Cys]
          apply Finset.biUnion_congr rfl
          intro d hd
          by_cases hdd : d = M.getDimension j
          · subst hdd
            rw [hcnt_eq, hbstep, l₄]
          · rw [hcnt_ne d hdd]
        · rw [l₃, Cys]
          symm
          apply biUnion_update_insert hd₀mem (p, j)
          · intro d _ hdd
            rw [hcnt_ne d hdd]
          · rw [hcnt_eq, hbstep, l₄]

/-- Standard reduction and clearing-free processing in twist order emit
the same pairs: both exhaust every band, and the pairs only depend on
the per-band progress. -/
theorem standardPairs_eq_twistNC (M : BoundaryMatrix) (hM : ValidBoundaryMatrix M) :
    standardPairs M = (runOf M (twistOrder M)).pairs := by
  obtain ⟨hbo₁, hcnt₁⟩ := isBandOrder_range M
  obtain ⟨hbo₂, hcnt₂⟩ := isBandOrder_twistOrder M
  obtain ⟨_, _, _, _, _, hC₁⟩ := run_desc M hM (List.range M.getNumColumns) hbo₁
  obtain ⟨_, _, _, _, _, hC₂⟩ := run_desc M hM (twistOrder M) hbo₂
  have hstd : standardPairs M = (runOf M (List.range M.getNumColumns)).pairs := rfl
  rw [hstd, hC₁, hC₂]
  apply Finset.biUnion_congr rfl
  intro d _
  rw [hcnt₁ d, hcnt₂ d]

theorem gsum_congr {T : Finset ℕ} {f g : ℕ → Finset ℕ}
    (h : ∀ i ∈ T, f i = g i) : gsum T f = gsum T g :=
  Finset.fold_congr h

/-- Clearing lemma: if the current column `j` is a GF(2) combination of
current columns of processed same-dimension columns, the clearing-free
loop reduces it to zero — it emits no pair and touches neither the
ownership table nor any other column.  This is why the twist strategy
may clear the birth column of a discovered pair: that column is such a
combination (by `∂ ∘ ∂ = 0`), so processing it does no visible work. -/
theorem reduceLoop_to_empty (M : BoundaryMatrix) (P : ℕ → Prop) :
    ∀ (fuel : ℕ) (st : RState) (j : ℕ),
    StInv M P st →
    ¬ P j →
    (∀ q k, lutAt st q = some k → M.getDimension k = M.getDimension j → k < j) →
    (∃ T : Finset ℕ, (∀ i ∈ T, P i ∧ M.getDimension i = M.getDimension j)
        ∧ colAt st j = gsum T (fun i => colAt st i)) →
    (∀ p, pivotOf st j = some p → p < fuel) →
    colAt (reduceLoop false fuel st j) j = ∅
    ∧ (reduceLoop false fuel st j).lut = st.lut
    ∧ (reduceLoop false fuel st j).pairs = st.pairs
    ∧ (∀ m, m ≠ j → colAt (reduceLoop false fuel st j) m = colAt st m) := by
  intro fuel
  induction fuel with
  | zero =>
    intro st j I hjP hltj hGood hfuel
    have hnone : pivotOf st j = none := by
      cases hpv : pivotOf st j with
      | none => rfl
      | some p => exact absurd (hfuel p hpv) (Nat.not_lt_zero p)
    rw [reduceLoop_zero]
    exact ⟨pivotOf_eq_none_iff.1 hnone, rfl, rfl, fun m _ => rfl⟩
  | succ fuel ih =>
    intro st j I hjP hltj hGood hfuel
    cases hpv : pivotOf st j with
    | none =>
      rw [reduceLoop_pivot_none hpv]
      exact ⟨pivotOf_eq_none_iff.1 hpv, rfl, rfl, fun m _ => rfl⟩
    | some p =>
      obtain ⟨T, hT, hTsum⟩ := hGood
      have hpmem : p ∈ colAt st j := pivot_mem hpv
      obtain ⟨hpj, hpd⟩ := I.closure j p hpmem
      -- the pivot is necessarily owned
      have howned : ∃ k, lutAt st p = some k := by
        have hsum' : colAt st j
            = gsum (T.filter (fun i => colAt st i ≠ ∅)) (fun i => colAt st i) := by
          rw [hTsum]
          exact gsum_filter_ne_empty _ T
        have hTne : (T.filter (fun i => colAt st i ≠ ∅)).Nonempty := by
          rw [Finset.nonempty_iff_ne_empty]
          intro he
          rw [he] at hsum'
          rw [gsum_empty] at hsum'
          rw [hsum'] at hpmem
          exact Finset.not_mem_empty p hpmem
        obtain ⟨k, hkmem, hkmax⟩ := gsum_max_of_distinct (fun i => colAt st i)
          (T.filter (fun i => colAt st i ≠ ∅))
          (fun i hi => (Finset.mem_filter.1 hi).2)
          (fun i₁ h₁ i₂ h₂ hmax => by
            obtain ⟨hi₁T, hi₁ne⟩ := Finset.mem_filter.1 h₁
            obtain ⟨hi₂T, hi₂ne⟩ := Finset.mem_filter.1 h₂
            obtain ⟨q₁, hq₁⟩ := Finset.max_of_nonempty (Finset.nonempty_iff_ne_empty.2 hi₁ne)
            obtain ⟨q₂, hq₂⟩ := Finset.max_of_nonempty (Finset.nonempty_iff_ne_empty.2 hi₂ne)
            have hl₁ := I.complete i₁ q₁ (hT i₁ hi₁T).1 hq₁
            have hl₂ := I.complete i₂ q₂ (hT i₂ hi₂T).1 hq₂
            have hq : q₁ = q₂ := by
              rw [hq₁, hq₂] at hmax
              exact WithBot.coe_inj.1 hmax
            subst hq
            rw [hl₁] at hl₂
            exact Option.some.inj hl₂)
          hTne
        have hkT : k ∈ T := (Finset.mem_filter.1 hkmem).1
        have hmaxk : (colAt st k).max = (p : WithBot ℕ) := by
          rw [← hkmax, ← hsum']
          exact pivotOf_max hpv
        exact ⟨k, I.complete k p (hT k hkT).1 hmaxk⟩
      obtain ⟨k, hl⟩ := howned
      rw [reduceLoop_add hpv hl]
      have hkP : P k := I.own_mem p k hl
      have hkmax : (colAt st k).max = (p : WithBot ℕ) := I.own_max p k hl
      have hpk : p ∈ colAt st k := Finset.mem_of_max hkmax
      have hdk : M.getDimension k = M.getDimension j := by
        obtain ⟨_, hd1⟩ := I.closure k p hpk
        omega
      have hkj : k < j := hltj p k hl hdk
      have hjlen : j < st.cols.length := by
        rcases Nat.lt_or_ge j st.cols.length with h₁ | h₁
        · exact h₁
        · have : colAt st j = ∅ := by
            rw [colAt, List.getD_eq_default _ _ (by simpa using h₁)]
          exact absurd (this ▸ hpmem) (Finset.not_mem_empty p)
      have hcolj' : colAt (addStep st j k) j = symmDiff (colAt st j) (colAt st k) :=
        colAt_addStep_self k hjlen
      have I' : StInv M P (addStep st j k) := by
        refine ⟨by rw [cols_length_addStep]; exact I.lcols, I.llut, ?_, I.own_mem, ?_, ?_⟩
        · intro m r hr
          rcases eq_or_ne j m with hjm | hjm
          · subst hjm
            rw [hcolj'] at hr
            rw [Finset.mem_symmDiff] at hr
            rcases hr with ⟨h₁, _⟩ | ⟨h₁, _⟩
            · exact I.closure j r h₁
            · obtain ⟨hrk, hrd⟩ := I.closure k r h₁
              exact ⟨lt_trans hrk hkj, by omega⟩
          · rw [colAt_addStep_ne k hjm] at hr
            exact I.closure m r hr
        · intro q k' h
          have hk'P := I.own_mem q k' h
          have hk'j : j ≠ k' := fun he => hjP (he ▸ hk'P)
          rw [colAt_addStep_ne k hk'j]
          exact I.own_max q k' h
        · intro k' p' hk' hp'
          have hk'j : j ≠ k' := fun he => hjP (he ▸ hk')
          rw [colAt_addStep_ne k hk'j] at hp'
          exact I.complete k' p' hk' hp'
      have hGood' : ∃ T' : Finset ℕ,
          (∀ i ∈ T', P i ∧ M.getDimension i = M.getDimension j)
            ∧ colAt (addStep st j k) j = gsum T' (fun i => colAt (addStep st j k) i) := by
        refine ⟨symmDiff T {k}, ?_, ?_⟩
        · intro i hi
          rw [Finset.mem_symmDiff] at hi
          rcases hi with ⟨h₁, _⟩ | ⟨h₁, _⟩
          · exact hT i h₁
          · rw [Finset.mem_singleton] at h₁
            subst h₁
            exact ⟨hkP, hdk⟩
        · have hcongr : gsum T (fun i => colAt (addStep st j k) i)
              = gsum T (fun i => colAt st i) := by
            apply gsum_congr
            intro i hi
            have hij : j ≠ i := fun he => hjP (he ▸ (hT i hi).1)
            exact colAt_addStep_ne k hij
          have hkcol : colAt (addStep st j k) k = colAt st k :=
            colAt_addStep_ne k (Nat.ne_of_gt hkj)
          rw [gsum_symmDiff_singleton, hcongr, hkcol, hcolj', hTsum]
      have hfuel' : ∀ p', pivotOf (addStep st j k) j = some p' → p' < fuel := by
        intro p' hpv'
        have hp'mem : p' ∈ colAt (addStep st j k) j := pivot_mem hpv'
        rw [hcolj'] at hp'mem
        have hp'p : p' < p :=
          mem_symmDiff_lt_of_max_eq (pivotOf_max hpv) hkmax p' hp'mem
        have hpfuel : p < fuel + 1 := hfuel p hpv
        omega
      have hltj' : ∀ q k', lutAt (addStep st j k) q = some k' →
          M.getDimension k' = M.getDimension j → k' < j := by
        intro q k' h hd
        rw [lutAt_addStep] at h
        exact hltj q k' h hd
      obtain ⟨h₁, h₂, h₃, h₄⟩ := ih (addStep st j k) j I' hjP hltj' hGood' hfuel'
      refine ⟨h₁, h₂, h₃, fun m hm => ?_⟩
      rw [h₄ m hm, colAt_addStep_ne k (fun he => hm he.symm)]

theorem symmDiff_eq_empty_iff {s t : Finset ℕ} : symmDiff s t = ∅ ↔ s = t := by
  constructor
  · intro h
    ext x
    constructor
    · intro hx
      by_contra hxt
      have : x ∈ symmDiff s t := Finset.mem_symmDiff.2 (Or.inl ⟨hx, hxt⟩)
      rw [h] at this
      exact Finset.not_mem_empty x this
    · intro hx
      by_contra hxs
      have : x ∈ symmDiff s t := Finset.mem_symmDiff.2 (Or.inr ⟨hx, hxs⟩)
      rw [h] at this
      exact Finset.not_mem_empty x this
  · rintro rfl
    rw [symmDiff_self]
    rfl

/-- The boundary of a GF(2) combination of original columns vanishes
when `∂ ∘ ∂ = 0`. -/
theorem chainBoundary_gsum (M : BoundaryMatrix) (hsq : M.squaredZero) :
    ∀ (T : Finset ℕ), (∀ i ∈ T, i < M.getNumColumns) →
    gsum (gsum T M.col) M.col = ∅ := by
  intro T
  induction T using Finset.induction_on with
  | empty => intro _; rfl
  | insert hmem ih =>
    rename_i a T
    intro hT
    have ha := hsq a (hT a (Finset.mem_insert_self a T))
    rw [chainBoundary] at ha
    rw [gsum_insert M.col hmem, gsum_symmDiff, ha,
      ih (fun i hi => hT i (Finset.mem_insert_of_mem hi)), symmDiff_empty_right]

/-- GF(2) spans are closed under GF(2) sums. -/
theorem span_closed_gsum {Q : ℕ → Prop} {f : ℕ → Finset ℕ} :
    ∀ (T : Finset ℕ) (g : ℕ → Finset ℕ),
    (∀ i ∈ T, ∃ S : Finset ℕ, (∀ x ∈ S, Q x) ∧ g i = gsum S f) →
    ∃ S : Finset ℕ, (∀ x ∈ S, Q x) ∧ gsum T g = gsum S f := by
  intro T
  induction T using Finset.induction_on with
  | empty =>
    intro g _
    exact ⟨∅, fun x hx => absurd hx (Finset.not_mem_empty x), rfl⟩
  | insert hmem ih =>
    rename_i a T
    intro g h
    obtain ⟨Sa, hSa, hga⟩ := h a (Finset.mem_insert_self a T)
    obtain ⟨ST, hST, hgT⟩ := ih g (fun i hi => h i (Finset.mem_insert_of_mem hi))
    refine ⟨symmDiff Sa ST, ?_, ?_⟩
    · intro x hx
      rw [Finset.mem_symmDiff] at hx
      rcases hx with ⟨h₁, _⟩ | ⟨h₁, _⟩
      · exact hSa x h₁
      · exact hST x h₁
    · rw [gsum_insert g hmem, hga, hgT, gsum_symmDiff]

/-- Span transfer: under the representation invariant, the original
column of every processed index is a GF(2) combination of current
columns of processed same-dimension indices. -/
theorem mcol_span_of_rep (M : BoundaryMatrix) (P : ℕ → Prop) (st : RState)
    (R : RepInv M P st) :
    ∀ r, P r →
    ∃ S : Finset ℕ, (∀ i ∈ S, P i ∧ M.getDimension i = M.getDimension r)
      ∧ M.col r = gsum S (fun i => colAt st i) := by
  intro r
  induction r using Nat.strong_induction_on with
  | _ r ih =>
    intro hr
    obtain ⟨T, hsum, hrT, hcond⟩ := R r
    have hmcol : M.col r
        = symmDiff (colAt st r) (gsum (T.erase r) M.col) := by
      rw [hsum, gsum_erase M.col hrT]
      exact (symmDiff_symmDiff_cancel_right _ _).symm
    have hG : ∃ S : Finset ℕ, (∀ i ∈ S, P i ∧ M.getDimension i = M.getDimension r)
        ∧ gsum (T.erase r) M.col = gsum S (fun i => colAt st i) := by
      apply span_closed_gsum (T.erase r) M.col
      intro i hi
      have hiT : i ∈ T := Finset.mem_of_mem_erase hi
      have hir : i ≠ r := Finset.ne_of_mem_erase hi
      obtain ⟨hdi, hile, hiP⟩ := hcond i hiT
      have hilt : i < r := lt_of_le_of_ne hile hir
      obtain ⟨S, hS, hmc⟩ := ih i hilt (hiP hir)
      refine ⟨S, ?_, hmc⟩
      intro x hx
      obtain ⟨hxP, hxd⟩ := hS x hx
      exact ⟨hxP, by omega⟩
    obtain ⟨SG, hSG, hGsum⟩ := hG
    refine ⟨symmDiff {r} SG, ?_, ?_⟩
    · intro x hx
      rw [Finset.mem_symmDiff] at hx
      rcases hx with ⟨h₁, _⟩ | ⟨h₁, _⟩
      · rw [Finset.mem_singleton] at h₁
        subst h₁
        exact ⟨hr, rfl⟩
      · exact hSG x h₁
    · rw [hmcol, hGsum, gsum_symmDiff, gsum_singleton]

/-- Simulation of twist reduction by its clearing-free counterpart over
any dimension-descending band order: the ownership table and the emitted
pairs coincide at every step; the columns coincide except that every
registered birth column is already empty in the clearing run while the
clearing-free run still holds its (provably zero-reducing) original
contents until the column's own turn. -/
theorem twist_sim (M : BoundaryMatrix) (hM : ValidBoundaryMatrix M) :
    ∀ (ord : List ℕ), IsBandOrder M ord → DimDescending M ord →
    (runOfC M ord).lut = (runOf M ord).lut
    ∧ (runOfC M ord).pairs = (runOf M ord).pairs
    ∧ (∀ k, k ∈ ord ∨ lutAt (runOf M ord) k = none →
        colAt (runOfC M ord) k = colAt (runOf M ord) k)
    ∧ (∀ k, k ∉ ord → lutAt (runOf M ord) k ≠ none → colAt (runOfC M ord) k = ∅) := by
  intro ord
  induction ord using List.reverseRecOn with
  | nil =>
    intro _ _
    refine ⟨rfl, rfl, fun k _ => rfl, fun k _ hk => ?_⟩
    exact absurd (lutAt_initState M k) hk
  | append_singleton ys j ih =>
    intro hbo hdesc
    obtain ⟨hboys, _, _, _⟩ := bandOrder_concat hbo
    have hjys : j ∉ ys := bandOrder_concat_not_mem hbo
    have hjord : j ∈ ys ++ [j] := List.mem_append_right ys (List.mem_singleton_self j)
    have hjN : j < M.getNumColumns := lt_numColumns_of_bandOrder hbo hjord
    obtain ⟨hdys, hdge⟩ := dimDescending_concat hdesc
    obtain ⟨Lys, Pys, Eys, Zys⟩ := ih hboys hdys
    obtain ⟨Iys, Rys, Uys, _, _, _⟩ := run_desc M hM ys hboys
    have hluteq : ∀ q, lutAt (runOf M ys) q = lutAt (runOfC M ys) q := by
      intro q
      rw [lutAt, lutAt, Lys]
    have hltj : ∀ q k, lutAt (runOf M ys) q = some k →
        M.getDimension k = M.getDimension j → k < j := by
      intro q k h hd
      exact bandOrder_concat_lt hbo k (Iys.own_mem q k h) hd
    have hfuelN : ∀ p, pivotOf (runOf M ys) j = some p → p < M.getNumColumns + 1 := by
      intro p hp
      have := (Iys.closure j p (pivot_mem hp)).1
      omega
    have hstepN : runOf M (ys ++ [j])
        = reduceLoop false (M.getNumColumns + 1) (runOf M ys) j := runOf_concat M ys j
    have hstepC : runOfC M (ys ++ [j])
        = reduceLoop true (M.getNumColumns + 1) (runOfC M ys) j := runOfC_concat M ys j
    cases hcase : lutAt (runOf M ys) j with
    | none =>
      have hColj : colAt (runOfC M ys) j = colAt (runOf M ys) j := Eys j (Or.inr hcase)
      obtain ⟨hcjout, hLS⟩ := reduceLoop_lockstep M false true (fun k => k ∈ ys)
        (M.getNumColumns + 1) (runOf M ys) (runOfC M ys) j
        Iys hjys hltj hColj.symm (fun q _ => hluteq q)
        (fun q k _ hl => (Eys k (Or.inl (Iys.own_mem q k hl))).symm)
      rw [hstepN, hstepC]
      rcases hLS with ⟨l₁, l₂, l₃, l₄, f₁, f₂⟩ |
        ⟨p, hpd, hpj, hp₁, hp₂, l₁, l₂, l₃, l₄, f₁, f₂, c₁, c₂⟩
      · refine ⟨?_, ?_, ?_, ?_⟩
        · rw [l₁, l₂, Lys]
        · rw [l₃, l₄, Pys]
        · intro k hk
          by_cases hkj : k = j
          · subst hkj
            exact hcjout.symm
          · rw [f₁ k hkj, f₂ k hkj]
            apply Eys k
            rcases hk with hk | hk
            · rcases List.mem_append.1 hk with h | h
              · exact Or.inl h
              · exact absurd (List.mem_singleton.1 h) hkj
            · refine Or.inr ?_
              rw [← hk, lutAt, lutAt, l₁]
        · intro k hk hlut
          have hkj : k ≠ j := fun he => hk (he ▸ hjord)
          rw [f₂ k hkj]
          apply Zys k (fun he => hk (List.mem_append_left _ he))
          intro hnone
          apply hlut
          rw [lutAt, l₁]
          exact hnone
      · have hpys : p ∉ ys := by
          intro hmem
          have := hdge p hmem
          omega
        have hplt : p < M.getNumColumns := by omega
        have hlutN' : ∀ m, m ≠ p →
            lutAt (reduceLoop false (M.getNumColumns + 1) (runOf M ys) j) m
              = lutAt (runOf M ys) m := by
          intro m hm
          rw [lutAt, l₁]
          exact getD_set_ne _ (fun he => hm he.symm)
        have hlutN'p : lutAt (reduceLoop false (M.getNumColumns + 1) (runOf M ys) j) p
            = some j := by
          rw [lutAt, l₁]
          exact getD_set_self _ (by rw [Iys.llut]; omega)
        refine ⟨?_, ?_, ?_, ?_⟩
        · rw [l₁, l₂, Lys]
        · rw [l₃, l₄, Pys]
        · intro k hk
          by_cases hkj : k = j
          · subst hkj
            exact hcjout.symm
          · by_cases hkp : k = p
            · subst hkp
              exfalso
              rcases hk with hk | hk
              · rcases List.mem_append.1 hk with h | h
                · exact hpys h
                · exact hkj (List.mem_singleton.1 h)
              · rw [hlutN'p] at hk
                exact Option.noConfusion hk
            · rw [f₁ k hkj (fun h => absurd h Bool.false_ne_true),
                f₂ k hkj (fun _ => hkp)]
              apply Eys k
              rcases hk with hk | hk
              · rcases List.mem_append.1 hk with h | h
                · exact Or.inl h
                · exact absurd (List.mem_singleton.1 h) hkj
              · refine Or.inr ?_
                rw [← hk, hlutN' k hkp]
        · intro k hk hlut
          have hkj : k ≠ j := fun he => hk (he ▸ hjord)
          have hkys : k ∉ ys := fun he => hk (List.mem_append_left _ he)
          by_cases hkp : k = p
          · subst hkp
            exact c₂ rfl
          · rw [f₂ k hkj (fun _ => hkp)]
            apply Zys k hkys
            intro hnone
            apply hlut
            rw [hlutN' k hkp]
            exact hnone
    | some j'' =>
      have hCj : colAt (runOfC M ys) j = ∅ := by
        apply Zys j hjys
        rw [hcase]
        exact fun h => Option.noConfusion h
      have hpivC : pivotOf (runOfC M ys) j = none := pivotOf_eq_none_iff.2 hCj
      have hj''ys : j'' ∈ ys := Iys.own_mem j j'' hcase
      have hj''N : j'' < M.getNumColumns := lt_numColumns_of_bandOrder hboys hj''ys
      have hmaxj'' : (colAt (runOf M ys) j'').max = (j : WithBot ℕ) :=
        Iys.own_max j j'' hcase
      have hjmem : j ∈ colAt (runOf M ys) j'' := Finset.mem_of_max hmaxj''
      have hdj : M.getDimension j + 1 = M.getDimension j'' :=
        (Iys.closure j'' j hjmem).2
      -- the boundary of the reduced column j'' vanishes
      obtain ⟨T'', hsum'', hj''T, hcond''⟩ := Rys j''
      have hbd : gsum (colAt (runOf M ys) j'') M.col = ∅ := by
        rw [hsum'']
        apply chainBoundary_gsum M hM.2.2
        intro i hi
        have := (hcond'' i hi).2.1
        omega
      have hMj : M.col j = gsum ((colAt (runOf M ys) j'').erase j) M.col := by
        have := gsum_erase M.col hjmem
        rw [this] at hbd
        exact symmDiff_eq_empty_iff.1 hbd
      -- every term of that combination is a processed same-band column
      have hterm : ∀ r ∈ (colAt (runOf M ys) j'').erase j,
          r ∈ ys ∧ M.getDimension r = M.getDimension j := by
        intro r hr
        have hrmem : r ∈ colAt (runOf M ys) j'' := Finset.mem_of_mem_erase hr
        have hrj : r ≠ j := Finset.ne_of_mem_erase hr
        have hrle : (r : WithBot ℕ) ≤ (j : WithBot ℕ) := hmaxj'' ▸ Finset.le_max hrmem
        have hrlt : r < j := lt_of_le_of_ne (WithBot.coe_le_coe.1 hrle) hrj
        have hrd : M.getDimension r = M.getDimension j := by
          have := (Iys.closure j'' r hrmem).2
          omega
        exact ⟨bandOrder_concat_processed hbo r hrlt (by omega) hrd, hrd⟩
      have hGood : ∃ T : Finset ℕ,
          (∀ i ∈ T, i ∈ ys ∧ M.getDimension i = M.getDimension j)
            ∧ colAt (runOf M ys) j = gsum T (fun i => colAt (runOf M ys) i) := by
        obtain ⟨S, hS, hle⟩ := span_closed_gsum
          (Q := fun x => x ∈ ys ∧ M.getDimension x = M.getDimension j)
          (f := fun i => colAt (runOf M ys) i)
          ((colAt (runOf M ys) j'').erase j) M.col
          (fun r hr => by
            obtain ⟨hrys, hrd⟩ := hterm r hr
            obtain ⟨Sr, hSr, hmc⟩ := mcol_span_of_rep M (fun k => k ∈ ys) (runOf M ys)
              Rys r hrys
            refine ⟨Sr, ?_, hmc⟩
            intro x hx
            obtain ⟨hx₁, hx₂⟩ := hSr x hx
            exact ⟨hx₁, by omega⟩)
        refine ⟨S, hS, ?_⟩
        rw [Uys j hjys, hMj, hle]
      obtain ⟨hz₁, hz₂, hz₃, hz₄⟩ := reduceLoop_to_empty M (fun k => k ∈ ys)
        (M.getNumColumns + 1) (runOf M ys) j Iys hjys hltj hGood hfuelN
      rw [hstepN, hstepC, reduceLoop_pivot_none hpivC]
      refine ⟨?_, ?_, ?_, ?_⟩
      · rw [hz₂, Lys]
      · rw [hz₃, Pys]
      · intro k hk
        by_cases hkj : k = j
        · subst hkj
          rw [hz₁, hCj]
        · rw [hz₄ k hkj]
          apply Eys k
          rcases hk with hk | hk
          · rcases List.mem_append.1 hk with h | h
            · exact Or.inl h
            · exact absurd (List.mem_singleton.1 h) hkj
          · refine Or.inr ?_
            rw [← hk, lutAt, lutAt, hz₂]
      · intro k hk hlut
        have hkj : k ≠ j := fun he => hk (he ▸ hjord)
        have hkys : k ∉ ys := fun he => hk (List.mem_append_left _ he)
        apply Zys k hkys
        intro hnone
        apply hlut
        rw [lutAt, hz₂]
        exact hnone

/-- C1: for every valid boundary matrix (triangular,
dimension-compatible, vanishing squared boundary), the set of
(birth, death) index pairs produced by the standard reduction strategy
equals the set produced by the twist reduction strategy, each run on its
own copy of the matrix. -/
theorem C1_standard_twist_equivalence (M : BoundaryMatrix)
    (hM : ValidBoundaryMatrix M) : standardPairs M = twistPairs M := by
  rw [standardPairs_eq_twistNC M hM]
  exact (twist_sim M hM (twistOrder M) (isBandOrder_twistOrder M).1
    (twistOrder_dimDescending M)).2.1.symm

theorem C1_standard_twist_equivalence_w :
    ValidBoundaryMatrix triangleMatrix
    ∧ standardPairs triangleMatrix = twistPairs triangleMatrix := by
  have hv : ValidBoundaryMatrix triangleMatrix := by
    unfold ValidBoundaryMatrix BoundaryMatrix.triangular
      BoundaryMatrix.dimCompatible BoundaryMatrix.squaredZero chainBoundary
    decide
  exact ⟨hv, C1_standard_twist_equivalence triangleMatrix hv⟩

end Aleph
